import Mathlib

/-!
# Ethereum address monitor: verification development

A shallow embedding of `main.go` (the monitor loop, `getMessageSender`,
`sendPushNotification`, `PushoverRequestBody`) together with the parts of the
Go libraries whose behaviour the program's observable output depends on
(`math/big` float division and `%g` formatting, `encoding/json` string
encoding, `common.HexToAddress`).
-/

namespace Monitor

/-! ## `math/big`: the quotient `tx.Value() / params.Ether` and its rendering -/

/-- Bit count of `n` by repeated halving, driven by `fuel`. -/
def bitLenAux : Nat → Nat → Nat
  | 0, _ => 0
  | fuel + 1, n => if n = 0 then 0 else bitLenAux fuel (n / 2) + 1

/-- Number of bits of `n`, as `big.Int.BitLen`: `0` for `0`. -/
def bitLen (n : Nat) : Nat :=
  bitLenAux n n

/-- A `big.Float` restricted to the forms this program can produce: zero, or a
finite positive value `mant * 2 ^ exp` held with `prec` bits of mantissa. -/
inductive BigFloat where
  | zero (prec : Nat)
  | finite (prec : Nat) (mant : Nat) (exp : Int)
deriving DecidableEq, Repr

/-- The precision of a float. -/
def BigFloat.prec : BigFloat → Nat
  | .zero p => p
  | .finite p _ _ => p

/-- Model of `new(big.Float).SetInt(x)` for `x >= 0`: the receiver has precision 0,
so the precision becomes `max(x.BitLen(), 64)` and the value is exact. -/
def BigFloat.SetInt (x : Nat) : BigFloat :=
  if x = 0 then .zero 64 else .finite (max (bitLen x) 64) x 0

/-- Rounding of the exact quotient `a / b` (`a, b > 0`) to `p` bits, to nearest
even, as `Float.uquo` followed by `Float.round`: the quotient is computed with
extra bits, the first dropped bit is the rounding bit and everything below it
(remainder included) is the sticky bit. Returns mantissa and binary exponent. -/
def roundQuo (a b p : Nat) : Nat × Int :=
  let s := p + 2 + bitLen b
  let Q := (a * 2 ^ s) / b
  let R := (a * 2 ^ s) % b
  let k := bitLen Q - p
  let m0 := Q / 2 ^ k
  let rbit := (Q / 2 ^ (k - 1)) % 2
  let sbit := decide (Q % 2 ^ (k - 1) ≠ 0) || decide (R ≠ 0)
  let m1 := if rbit = 1 ∧ (sbit = true ∨ m0 % 2 = 1) then m0 + 1 else m0
  if m1 = 2 ^ p then (2 ^ (p - 1), (k : Int) - (s : Int) + 1)
  else (m1, (k : Int) - (s : Int))

/-- Model of `new(big.Float).Quo(x, y)` for a nonzero `y`: the receiver has
precision 0, so the result precision is the larger operand precision, and the
result is the exact quotient rounded to that precision. -/
def BigFloat.Quo (x y : BigFloat) : BigFloat :=
  let p := max x.prec y.prec
  match x, y with
  | .finite _ mx ex, .finite _ my ey =>
      let r := roundQuo mx my p
      .finite p r.1 (r.2 + ex - ey)
  | _, _ => .zero p

/-- The multiprecision decimal of `math/big`: digits (most significant first,
no trailing zeros) and a decimal exponent; the value is `0.mant * 10 ^ exp`. -/
structure Decimal where
  mant : List Nat
  exp : Int
deriving DecidableEq, Repr

/-- Decimal digits of `n`, most significant first, driven by `fuel`. -/
def digitsAux : Nat → Nat → List Nat → List Nat
  | 0, _, acc => acc
  | fuel + 1, n, acc =>
      if n < 10 then n :: acc else digitsAux fuel (n / 10) (n % 10 :: acc)

/-- Decimal digits of `n` (as `nat.utoa(10)`), most significant first; `0` has
the single digit `0`. -/
def digits (n : Nat) : List Nat :=
  digitsAux (n + 1) n []

/-- Removal of trailing zero digits (`trim` in `decimal.go`). -/
def trimZeros (l : List Nat) : List Nat :=
  (l.reverse.dropWhile (fun d => d == 0)).reverse

/-- Model of `decimal.init(m, shift)` for `m > 0`: the exact decimal
representation of `m * 2 ^ shift`. -/
def Decimal.init (m : Nat) (shift : Int) : Decimal :=
  let k := shift.toNat
  let j := (-shift).toNat
  let s := digits (m * 2 ^ k * 5 ^ j)
  { mant := trimZeros s, exp := (s.length : Int) - (j : Int) }

/-- Rounding decision of `shouldRoundUp(x, n)`. -/
def shouldRoundUp (x : Decimal) (n : Nat) : Bool :=
  if x.mant.getD n 0 = 5 ∧ n + 1 = x.mant.length then
    decide (0 < n) && decide ((x.mant.getD (n - 1) 0) % 2 ≠ 0)
  else
    decide (5 ≤ x.mant.getD n 0)

/-- Model of `decimal.roundUp(n)` for `n < len(mant)`: the first `n` digits,
incremented by one unit in the last place. -/
def Decimal.roundUp (x : Decimal) (n : Nat) : Decimal :=
  let kept := (x.mant.take n).reverse.dropWhile (fun d => decide (9 ≤ d))
  match kept with
  | [] => { mant := [1], exp := x.exp + 1 }
  | d :: rest => { mant := (rest.reverse ++ [d + 1]), exp := x.exp }

/-- Model of `decimal.roundDown(n)` for `n < len(mant)`. -/
def Decimal.roundDown (x : Decimal) (n : Nat) : Decimal :=
  let m := trimZeros (x.mant.take n)
  { mant := m, exp := if m = [] then 0 else x.exp }

/-- Model of `decimal.round(n)` for `n >= 0`. -/
def Decimal.round (x : Decimal) (n : Nat) : Decimal :=
  if x.mant.length ≤ n then x
  else if shouldRoundUp x n then x.roundUp n else x.roundDown n

/-- A decimal digit as its ASCII character. -/
def digitChar (d : Nat) : Char :=
  Char.ofNat (48 + d)

/-- Digit `i` of the mantissa, `0` outside it (`decimal.at`). -/
def Decimal.at (d : Decimal) (i : Int) : Nat :=
  if 0 ≤ i ∧ i.toNat < d.mant.length then d.mant.getD i.toNat 0 else 0

/-- Model of `fmtE(buf, 'e', prec, d)`: the form `d.ddddde±dd`. -/
def fmtE (prec : Nat) (d : Decimal) : List Char :=
  let first := digitChar (d.mant.headD 0)
  let m := min d.mant.length (prec + 1)
  let frac : List Char :=
    if 0 < prec then
      '.' :: (((d.mant.take m).drop 1).map digitChar
        ++ List.replicate (prec + 1 - max m 1) '0')
    else []
  let e : Int := if d.mant.length > 0 then d.exp - 1 else 0
  let sign : Char := if e < 0 then '-' else '+'
  let a := e.natAbs
  let pad : List Char := if a < 10 then ['0'] else []
  first :: (frac ++ ['e', sign] ++ pad ++ (digits a).map digitChar)

/-- Model of `fmtF(buf, prec, d)`: the form `ddddddd.ddddd`. -/
def fmtF (prec : Nat) (d : Decimal) : List Char :=
  let int : List Char :=
    if 0 < d.exp then
      let m := min d.mant.length d.exp.toNat
      (d.mant.take m).map digitChar ++ List.replicate (d.exp.toNat - m) '0'
    else ['0']
  let frac : List Char :=
    if 0 < prec then
      '.' :: (List.range prec).map (fun (i : Nat) => digitChar (d.at (d.exp + (i : Int))))
    else []
  int ++ frac

/-- Model of the `'g'` case of `Float.Append(buf, 'g', prec)` with `prec > 0`,
applied to the exact decimal `d0` of the float. -/
def fmtG (prec : Nat) (d0 : Decimal) : List Char :=
  let d := d0.round prec
  let eprec : Int :=
    if prec > d.mant.length ∧ (d.mant.length : Int) ≥ d.exp then d.mant.length else prec
  let exp := d.exp - 1
  if exp < -4 ∨ exp ≥ eprec then
    fmtE ((min prec d.mant.length) - 1) d
  else
    let p : Int := if (prec : Int) > d.exp then d.mant.length else prec
    fmtF (p - d.exp).toNat d

/-- The exact decimal of a float (zero has no digits and exponent 0). -/
def BigFloat.toDecimal : BigFloat → Decimal
  | .zero _ => { mant := [], exp := 0 }
  | .finite _ m e => Decimal.init m e

/-- Model of `Float.String()`, which is `Text('g', 10)`, for a float that is
zero or positive. -/
def BigFloat.String (x : BigFloat) : String :=
  String.mk (fmtG 10 x.toDecimal)

/-- The constant `params.Ether` of go-ethereum: `1e18` wei. -/
def Ether : Nat := 1000000000000000000

/-- Lines 67-68 of `main.go`: `ethValue`, the quotient of the transaction value
by `params.Ether` as a `big.Float`. -/
def ethValue (value : Nat) : BigFloat :=
  let divisor := BigFloat.SetInt Ether
  BigFloat.Quo (BigFloat.SetInt value) divisor

/-- The exact decimal of `v / 10 ^ 18` for a wei value `v`: the decimal digits
of `v` without its trailing zeros, with the point 18 places before the end of
`v`. -/
def exactDecimal (v : Nat) : Decimal :=
  if v = 0 then { mant := [], exp := 0 }
  else { mant := trimZeros (digits v), exp := ((digits v).length : Int) - 18 }

/-- The number a list of decimal digits, most significant first, stands for. -/
def digitsValue (l : List Nat) : Nat :=
  l.foldl (fun acc d => acc * 10 + d) 0

/-- The value `0.mant * 10 ^ exp` of a decimal. -/
def Decimal.toRat (d : Decimal) : ℚ :=
  (digitsValue d.mant : ℚ) * (10 : ℚ) ^ (d.exp - (d.mant.length : Int))

/-- The value of a decimal digit character. -/
def digitOf (c : Char) : Option Nat :=
  if 48 ≤ c.toNat ∧ c.toNat ≤ 57 then some (c.toNat - 48) else none

/-- The digits of a text made of decimal digits only. -/
def digitsOf : List Char → Option (List Nat)
  | [] => some []
  | c :: rest =>
      match digitOf c, digitsOf rest with
      | some d, some ds => some (d :: ds)
      | _, _ => none

/-- The exponent a text after the letter `e` denotes: a sign and at least one
digit; no text at all is the exponent zero. -/
def exponentOf : List Char → Option Int
  | [] => some 0
  | sign :: rest =>
      match digitsOf rest with
      | some ds =>
          if ds = [] then none
          else if sign = '+' then some (digitsValue ds : Int)
          else if sign = '-' then some (-(digitsValue ds : Int))
          else none
      | none => none

/-- The number a decimal text of the form `ddd`, `ddd.ddd` or `d.ddde±dd`
denotes: the digits before and after the point, scaled by the exponent. -/
def decimalValue (s : String) : Option ℚ :=
  let mantissa := s.data.takeWhile (fun c => c != 'e')
  let exponent := (s.data.dropWhile (fun c => c != 'e')).drop 1
  let intText := mantissa.takeWhile (fun c => c != '.')
  let fracText := (mantissa.dropWhile (fun c => c != '.')).drop 1
  match digitsOf intText, digitsOf fracText, exponentOf exponent with
  | some i, some f, some e =>
      if i = [] then none
      else some ((digitsValue (i ++ f) : ℚ) * (10 : ℚ) ^ (e - (f.length : Int)))
  | _, _, _ => none

/-- The text of a mantissa: digits, then a point and digits if there are any. -/
def mantissaText (i f : List Nat) : List Char :=
  i.map digitChar ++ (if f = [] then [] else '.' :: f.map digitChar)

/-! ## `encoding/json`: the wire form of `PushoverRequestBody`

Go strings that are valid UTF-8 are sequences of Unicode scalar values, that
is Lean strings; the payload is kept as the list of its characters. -/

/-- The struct `PushoverRequestBody` of `main.go`, with its JSON keys
`token`, `user`, `message`, `url` (omitted when empty) and `title`. -/
structure PushoverRequestBody where
  Token : String
  User : String
  Message : String
  Url : String
  Title : String
deriving DecidableEq, Repr

/-- The double quote character. -/
def cQuote : Char := Char.ofNat 34

/-- The backslash character. -/
def cBackslash : Char := Char.ofNat 92

/-- The opening brace. -/
def cLBrace : Char := Char.ofNat 123

/-- The closing brace. -/
def cRBrace : Char := Char.ofNat 125

/-- Lower-case hexadecimal digit of `n < 16` (the table `hex` of the encoder). -/
def hexDigit (n : Nat) : Char :=
  if n < 10 then Char.ofNat (48 + n) else Char.ofNat (87 + n)

/-- The table `htmlSafeSet` of `encoding/json` on ASCII: printable characters
other than the double quote, the backslash, `<`, `>` and `&`. -/
def htmlSafe (c : Char) : Bool :=
  decide (32 ≤ c.toNat) && !(c.toNat == 34 || c.toNat == 92 || c.toNat == 60
    || c.toNat == 62 || c.toNat == 38)

/-- What the encoder (`encodeState.string`, HTML escaping on, as `json.Marshal`
sets it) writes for one character of a valid UTF-8 string. -/
def encodeChar (c : Char) : List Char :=
  if c.toNat < 128 then
    if htmlSafe c then [c]
    else if c.toNat = 92 ∨ c.toNat = 34 then [cBackslash, c]
    else if c.toNat = 10 then [cBackslash, 'n']
    else if c.toNat = 13 then [cBackslash, 'r']
    else if c.toNat = 9 then [cBackslash, 't']
    else [cBackslash, 'u', '0', '0', hexDigit (c.toNat / 16), hexDigit (c.toNat % 16)]
  else if c.toNat = 8232 ∨ c.toNat = 8233 then
    [cBackslash, 'u', '2', '0', '2', hexDigit (c.toNat % 16)]
  else [c]

/-- The JSON string literal the encoder writes for `s`. -/
def encodeString (s : List Char) : List Char :=
  cQuote :: (s.flatMap encodeChar ++ [cQuote])

/-- One `"key":value` member of the object. -/
def encodeField (key : String) (value : String) : List Char :=
  encodeString key.data ++ ':' :: encodeString value.data

/-- Model of `json.Marshal(requestBody)`: the members in declaration order,
`url` left out when it is the empty string (`omitempty`). Marshalling a struct
of strings cannot fail, so the result is always `ok`. -/
def jsonMarshal (b : PushoverRequestBody) : Except String (List Char) :=
  .ok (cLBrace :: encodeField "token" b.Token
    ++ ',' :: encodeField "user" b.User
    ++ ',' :: encodeField "message" b.Message
    ++ (if b.Url = "" then [] else ',' :: encodeField "url" b.Url)
    ++ ',' :: encodeField "title" b.Title ++ [cRBrace])

/-- Value of a hexadecimal digit, either case. -/
def hexVal (c : Char) : Option Nat :=
  let n := c.toNat
  if 48 ≤ n ∧ n ≤ 57 then some (n - 48)
  else if 97 ≤ n ∧ n ≤ 102 then some (n - 87)
  else if 65 ≤ n ∧ n ≤ 70 then some (n - 55)
  else none

/-- The four hexadecimal digits after a backslash-u escape (`getu4`): the code
unit and the input after the digits. -/
def getu4 : List Char → Option (Nat × List Char)
  | a :: b :: c :: d :: rest =>
      match hexVal a, hexVal b, hexVal c, hexVal d with
      | some x, some y, some z, some w => some (((x * 16 + y) * 16 + z) * 16 + w, rest)
      | _, _, _, _ => none
  | _ => none

/-- The one-character escapes the decoder accepts after a backslash. -/
def simpleEscape (e : Char) : Option Char :=
  if e.toNat = 34 ∨ e.toNat = 92 ∨ e.toNat = 47 then some e
  else if e = 'b' then some (Char.ofNat 8)
  else if e = 'f' then some (Char.ofNat 12)
  else if e = 'n' then some (Char.ofNat 10)
  else if e = 'r' then some (Char.ofNat 13)
  else if e = 't' then some (Char.ofNat 9)
  else none

/-- The low surrogate escape that may follow a high surrogate `hi`: the
combined character and the remaining input, or the replacement character with
the input untouched when no valid low surrogate follows. -/
def surrogatePair (hi : Nat) (rest : List Char) : Char × List Char :=
  match rest with
  | b :: u :: rest2 =>
      if b = cBackslash ∧ u = 'u' then
        match getu4 rest2 with
        | some (lo, rest3) =>
            if hi < 56320 ∧ 56320 ≤ lo ∧ lo < 57344 then
              (Char.ofNat ((hi - 55296) * 1024 + (lo - 56320) + 65536), rest3)
            else (Char.ofNat 65533, rest)
        | none => (Char.ofNat 65533, rest)
      else (Char.ofNat 65533, rest)
  | _ => (Char.ofNat 65533, rest)

/-- Model of the decoder on the inside of a string literal (the scanner's
validation together with `unquote`): reads up to the closing quote and returns
the decoded characters (accumulated in reverse in `acc`) and the input after
the quote. Control characters and unknown escapes are errors. -/
def unquoteAux : Nat → List Char → List Char → Option (List Char × List Char)
  | 0, _, _ => none
  | _ + 1, [], _ => none
  | fuel + 1, c :: rest, acc =>
      if c = cQuote then some (acc.reverse, rest)
      else if c.toNat < 32 then none
      else if c = cBackslash then
        match rest with
        | [] => none
        | e :: rest2 =>
            if e = 'u' then
              match getu4 rest2 with
              | none => none
              | some (v, rest3) =>
                  if 55296 ≤ v ∧ v < 57344 then
                    let r := surrogatePair v rest3
                    unquoteAux fuel r.2 (r.1 :: acc)
                  else unquoteAux fuel rest3 (Char.ofNat v :: acc)
            else
              match simpleEscape e with
              | some ch => unquoteAux fuel rest2 (ch :: acc)
              | none => none
      else unquoteAux fuel rest (c :: acc)

/-- JSON white space. -/
def isSpace (c : Char) : Bool :=
  c.toNat == 32 || c.toNat == 9 || c.toNat == 13 || c.toNat == 10

/-- Input with leading white space removed. -/
def skipSpace (s : List Char) : List Char :=
  s.dropWhile isSpace

/-- A string literal at the head of the input (after white space). -/
def parseString (s : List Char) : Option (List Char × List Char) :=
  match skipSpace s with
  | c :: rest => if c = cQuote then unquoteAux (rest.length + 1) rest [] else none
  | [] => none

/-- Assignment of a decoded member to the field whose JSON key is `key`.
Keys other than the five declared ones are outside this model (`none`). -/
def setField (b : PushoverRequestBody) (key : List Char) (value : List Char) :
    Option PushoverRequestBody :=
  if key = "token".data then some { b with Token := String.mk value }
  else if key = "user".data then some { b with User := String.mk value }
  else if key = "message".data then some { b with Message := String.mk value }
  else if key = "url".data then some { b with Url := String.mk value }
  else if key = "title".data then some { b with Title := String.mk value }
  else none

/-- The members of an object after the opening brace: `"key":"value"` pairs
separated by commas up to the closing brace, then only white space. -/
def parseMembers : Nat → List Char → PushoverRequestBody → Option PushoverRequestBody
  | 0, _, _ => none
  | fuel + 1, s, b =>
      match parseString s with
      | none => none
      | some (key, s1) =>
          match skipSpace s1 with
          | c :: s2 =>
              if c = ':' then
                match parseString s2 with
                | none => none
                | some (value, s3) =>
                    match setField b key value with
                    | none => none
                    | some b1 =>
                        match skipSpace s3 with
                        | d :: s4 =>
                            if d = ',' then parseMembers fuel s4 b1
                            else if d = cRBrace ∧ skipSpace s4 = [] then some b1
                            else none
                        | [] => none
              else none
          | [] => none

/-- Model of `json.Unmarshal(data, &v)` for `v` a zero `PushoverRequestBody`,
on the fragment of JSON this program exchanges: one object whose members have
the declared keys and string values. A field without a member keeps its zero
value, the empty string. Input outside the fragment gives `none`. -/
def jsonUnmarshal (data : List Char) : Option PushoverRequestBody :=
  let zero : PushoverRequestBody :=
    { Token := "", User := "", Message := "", Url := "", Title := "" }
  match skipSpace data with
  | c :: rest =>
      if c = cLBrace then
        match skipSpace rest with
        | d :: rest2 =>
            if d = cRBrace ∧ skipSpace rest2 = [] then some zero
            else parseMembers (rest.length + 1) rest zero
        | [] => none
      else none
  | [] => none

/-! ## go-ethereum `common`: addresses and hashes -/

/-- A byte. -/
abbrev Byte := Fin 256

/-- The type `common.Address`: an array of exactly 20 bytes. Equality of
addresses (`==` in Go) is equality of the 20 bytes. -/
abbrev Address := { l : List Byte // l.length = 20 }

/-- The type `common.Hash`, kept as its bytes. -/
structure TxHash where
  bytes : List Byte
deriving DecidableEq, Repr

/-- The zero value `common.Address{}`. -/
def zeroAddress : Address :=
  ⟨List.replicate 20 0, by simp⟩

/-- The UTF-8 bytes of a character. -/
def utf8Char (c : Char) : List Byte :=
  let n := c.toNat
  if n < 128 then [Fin.ofNat n]
  else if n < 2048 then [Fin.ofNat (192 + n / 64), Fin.ofNat (128 + n % 64)]
  else if n < 65536 then
    [Fin.ofNat (224 + n / 4096), Fin.ofNat (128 + n / 64 % 64), Fin.ofNat (128 + n % 64)]
  else
    [Fin.ofNat (240 + n / 262144), Fin.ofNat (128 + n / 4096 % 64),
      Fin.ofNat (128 + n / 64 % 64), Fin.ofNat (128 + n % 64)]

/-- The bytes of a Go string holding the text `s`. -/
def goBytes (s : String) : List Byte :=
  s.data.flatMap utf8Char

/-- Value of a hexadecimal digit byte, either case (`fromHexChar`). -/
def fromHexChar (c : Byte) : Option Nat :=
  if 48 ≤ c.val ∧ c.val ≤ 57 then some (c.val - 48)
  else if 97 ≤ c.val ∧ c.val ≤ 102 then some (c.val - 87)
  else if 65 ≤ c.val ∧ c.val ≤ 70 then some (c.val - 55)
  else none

/-- Model of `common.Hex2Bytes`, that is `hex.DecodeString` with the error
dropped: the bytes decoded before the first pair that is not hexadecimal. -/
def Hex2Bytes : List Byte → List Byte
  | p :: q :: rest =>
      match fromHexChar p, fromHexChar q with
      | some a, some b => Fin.ofNat (a * 16 + b) :: Hex2Bytes rest
      | _, _ => []
  | _ => []

/-- The test `has0xPrefix` of go-ethereum: a leading `0x` or `0X`. -/
def has0x (s : List Byte) : Bool :=
  match s with
  | a :: b :: _ => decide (a.val = 48) && (decide (b.val = 120) || decide (b.val = 88))
  | _ => false

/-- Model of `common.FromHex`: optional `0x`, a leading `0` added to an odd
number of digits, then `Hex2Bytes`. -/
def FromHex (s : List Byte) : List Byte :=
  let s1 := if has0x s then s.drop 2 else s
  let s2 := if s1.length % 2 = 1 then (48 : Byte) :: s1 else s1
  Hex2Bytes s2

/-- Model of `common.BytesToAddress`: the last 20 bytes of `b`, padded with
zero bytes on the left when `b` is shorter. -/
def BytesToAddress (b : List Byte) : Address :=
  ⟨List.replicate (20 - b.length) 0 ++ b.drop (b.length - 20), by
    simp only [List.length_append, List.length_replicate, List.length_drop]
    omega⟩

/-- Model of `common.HexToAddress`. -/
def HexToAddress (s : String) : Address :=
  BytesToAddress (FromHex (goBytes s))

/-- Lower-case hexadecimal text of bytes (`hex.EncodeToString`). -/
def hexEncode (b : List Byte) : List Char :=
  b.flatMap (fun x => [hexDigit (x.val / 16), hexDigit (x.val % 16)])

/-- Model of `common.Hash.Hex`: `0x` followed by the lower-case hexadecimal
digits of the bytes. -/
def TxHash.Hex (h : TxHash) : String :=
  "0x" ++ String.mk (hexEncode h.bytes)

/-! ## go-ethereum `core/types`: transactions and signers -/

/-- The signers `getMessageSender` chooses between, named after the
constructors it calls. -/
inductive Signer where
  | NewEIP155Signer (chainId : Int)
  | LatestSignerForChainID (chainId : Int)
deriving DecidableEq, Repr

/-- What the monitor reads of a `types.Transaction`: the type tag `Type()`
(a `uint8`), `ChainId()`, the recipient `To()` (absent for a contract
creation), `Value()` in wei, `Hash()`, and the remaining content (nonce, gas,
data, signature), which only signature recovery looks at. -/
structure Transaction where
  TxType : Byte
  ChainId : Int
  To : Option Address
  Value : Nat
  Hash : TxHash
  payload : Nat
deriving DecidableEq

/-- A Go `error` value, kept as its text; `none` is `nil`. -/
abbrev GoError := Option String

/-- Lines 81-94 of `main.go`. `Sender` stands for `types.Sender`; like every
Go function of this shape it returns an address together with an error. -/
def getMessageSender (Sender : Signer → Transaction → Address × GoError)
    (tx : Transaction) (chainId : Int) : Address × GoError :=
  if tx.TxType.val = 0 then
    Sender (Signer.NewEIP155Signer chainId) tx
  else if tx.TxType.val = 1 ∨ tx.TxType.val = 2 then
    Sender (Signer.LatestSignerForChainID chainId) tx
  else
    (zeroAddress, some ("transaction type not supported: " ++ toString tx.TxType.val))

/-! ## `sendPushNotification` -/

/-- What the program reads of an `http.Response`: the status code and the
outcome of `ioutil.ReadAll(resp.Body)`. -/
structure Response where
  StatusCode : Int
  Body : Except String String

/-- Lines 105-111 of `main.go`: the request body built from the arguments. -/
def requestBody (apiKey userKey message title url : String) : PushoverRequestBody :=
  { Token := apiKey, User := userKey, Message := message, Url := url, Title := title }

/-- Lines 104-133 of `main.go`. `post` stands for the call
`http.Post("https://api.pushover.net/1/messages.json", "application/json", ...)`
applied to the marshalled body. -/
def sendPushNotification (post : List Char → Except String Response)
    (apiKey userKey message title url : String) : GoError :=
  match jsonMarshal (requestBody apiKey userKey message title url) with
  | .error err => some err
  | .ok jsonData =>
      match post jsonData with
      | .error err => some err
      | .ok resp =>
          if resp.StatusCode ≠ 200 then
            match resp.Body with
            | .error _ => some "failed to read response body"
            | .ok body => some ("failed to send push notification : " ++ body)
          else none

/-! ## The monitor loop of `main` -/

/-- What the monitor reads of a `types.Header`. -/
structure Header where
  Number : Int
deriving DecidableEq, Repr

/-- What the monitor reads of a `types.Block`: `Transactions()`, in block order. -/
structure Block where
  Transactions : List Transaction

/-- The command-line flags, named as the variables of `main`. -/
structure Flags where
  your_infura_token_here : String
  monitor_address : String
  api_key : String
  user_key : String

/-- The collaborators of the program. `Sender` is `types.Sender`, `AddressHex`
is `common.Address.Hex` (the checksummed text of an address). The answers of
the node and of the notification provider are indexed by the place in the run
where they are asked for: `BlockByNumber i n` answers the fetch for the header
at position `i` of the feed (whose number is `n`), and `Post i j body` answers
the HTTP POST made for transaction `j` of that header. -/
structure World where
  Dial : Except String Unit
  SubscribeNewHead : Except String Unit
  Sender : Signer → Transaction → Address × GoError
  AddressHex : Address → String
  BlockByNumber : Nat → Int → Except String Block
  Post : Nat → Nat → List Char → Except String Response

/-- The observable actions of the program, in the order they happen. -/
inductive Event where
  | printed (text : String)
  | logged (err : String)
  | notify (apiKey userKey message title url : String)
deriving DecidableEq, Repr

/-- How a piece of the loop hands control on: `next` goes on with the loop,
`stop` is the `return` of line 74, `crash` is a run-time panic. -/
inductive Flow where
  | next
  | stop
  | crash
deriving DecidableEq, Repr

/-- The message argument of line 71. -/
def pushMessage (fromHex toHex value : String) : String :=
  fromHex ++ " -> " ++ toHex ++ " : " ++ value ++ " ETH"

/-- The title argument of line 71. -/
def pushTitle (value : String) : String :=
  value ++ " ETH"

/-- The url argument of line 71. -/
def pushUrl (hashHex : String) : String :=
  "https://etherscan.io/tx/" ++ hashHex

/-- Lines 55-76 of `main.go`: the body of the inner loop for transaction `j` of
the header at position `i`. `tx.To()` is a pointer and `Hex` has a value
receiver, so for an absent recipient evaluating the arguments of line 66
panics, after the three lines before it were printed. -/
def processTx (w : World) (f : Flags) (targetAddress : Address) (i j : Nat)
    (tx : Transaction) : List Event × Flow :=
  let r := getMessageSender w.Sender tx tx.ChainId
  match r.2 with
  | some err => ([Event.logged err], Flow.next)
  | none =>
      if r.1 = targetAddress then
        let head := [Event.printed "New outgoing transaction:\n",
          Event.printed ("\tTx Hash: " ++ tx.Hash.Hex ++ "\n"),
          Event.printed ("\tFrom: " ++ w.AddressHex r.1 ++ "\n")]
        match tx.To with
        | none => (head, Flow.crash)
        | some recipient =>
            let value := (ethValue tx.Value).String
            let message := pushMessage (w.AddressHex r.1) (w.AddressHex recipient) value
            let title := pushTitle value
            let url := pushUrl tx.Hash.Hex
            let shown := head ++ [Event.printed ("\tTo: " ++ w.AddressHex recipient ++ "\n"),
              Event.printed ("\tValue: " ++ value ++ "\n"),
              Event.notify f.api_key f.user_key message title url]
            match sendPushNotification (w.Post i j) f.api_key f.user_key message title url with
            | some err => (shown ++ [Event.logged err], Flow.stop)
            | none => (shown, Flow.next)
      else ([], Flow.next)

/-- Lines 54-77: the inner loop over the transactions of a block, from
transaction index `j` on. -/
def processTxs (w : World) (f : Flags) (targetAddress : Address) (i : Nat) :
    Nat → List Transaction → List Event × Flow
  | _, [] => ([], Flow.next)
  | j, tx :: rest =>
      let r := processTx w f targetAddress i j tx
      match r.2 with
      | Flow.next =>
          let r2 := processTxs w f targetAddress i (j + 1) rest
          (r.1 ++ r2.1, r2.2)
      | fl => (r.1, fl)

/-- Lines 48-77: the body of the outer loop for the header at position `i`. -/
def processHeader (w : World) (f : Flags) (targetAddress : Address) (i : Nat)
    (header : Header) : List Event × Flow :=
  match w.BlockByNumber i header.Number with
  | .error err => ([Event.logged err], Flow.next)
  | .ok block => processTxs w f targetAddress i 0 block.Transactions

/-- Lines 47-78: the loop over the headers the feed delivers, from position `i`
on. The list is what the channel delivers before it is closed; running off its
end with `next` is the feed closing. -/
def monitorLoop (w : World) (f : Flags) (targetAddress : Address) :
    Nat → List Header → List Event × Flow
  | _, [] => ([], Flow.next)
  | i, header :: rest =>
      let r := processHeader w f targetAddress i header
      match r.2 with
      | Flow.next =>
          let r2 := monitorLoop w f targetAddress (i + 1) rest
          (r.1 ++ r2.1, r2.2)
      | fl => (r.1, fl)

/-- How the process ends. -/
inductive Exit where
  | fatal
  | feedClosed
  | dispatchFailed
  | panicked
deriving DecidableEq, Repr

/-- The end of the process for the flow the loop ended with. -/
def Flow.toExit : Flow → Exit
  | Flow.next => Exit.feedClosed
  | Flow.stop => Exit.dispatchFailed
  | Flow.crash => Exit.panicked

/-- The function `main` of `main.go` run against a world `w`, flags `f` and the
headers the feed delivers before closing. -/
def main (w : World) (f : Flags) (headers : List Header) : List Event × Exit :=
  match w.Dial with
  | .error err => ([Event.logged err], Exit.fatal)
  | .ok _ =>
      let targetAddress := HexToAddress f.monitor_address
      let start := Event.printed ("Monitoring address: " ++ w.AddressHex targetAddress ++ "\n")
      match w.SubscribeNewHead with
      | .error err => ([start, Event.logged err], Exit.fatal)
      | .ok _ =>
          let r := monitorLoop w f targetAddress 0 headers
          (start :: r.1, r.2.toExit)

/-- The calls of `sendPushNotification` in a trace, in order. -/
def notifications (evs : List Event) : List Event :=
  evs.filter (fun e => match e with
    | Event.notify _ _ _ _ _ => true
    | _ => false)

/-- The decision of lines 57 and 62: sender recovery succeeded and the
recovered address is the monitored one. -/
def isMatch (w : World) (targetAddress : Address) (tx : Transaction) : Bool :=
  decide ((getMessageSender w.Sender tx tx.ChainId).2 = none
    ∧ (getMessageSender w.Sender tx tx.ChainId).1 = targetAddress)

/-- The call of `sendPushNotification` line 71 makes for a transaction with a
recipient; there is none to make for a transaction without one. -/
def notifyOf (w : World) (f : Flags) (tx : Transaction) : Option Event :=
  match tx.To with
  | none => none
  | some recipient =>
      some (Event.notify f.api_key f.user_key
        (pushMessage (w.AddressHex (getMessageSender w.Sender tx tx.ChainId).1)
          (w.AddressHex recipient) (ethValue tx.Value).String)
        (pushTitle (ethValue tx.Value).String)
        (pushUrl tx.Hash.Hex))

/-- The result of the dispatch line 71 makes for transaction `j` of header `i`
with recipient `recipient`. -/
def dispatch (w : World) (f : Flags) (i j : Nat) (tx : Transaction) (recipient : Address) :
    GoError :=
  sendPushNotification (w.Post i j) f.api_key f.user_key
    (pushMessage (w.AddressHex (getMessageSender w.Sender tx tx.ChainId).1)
      (w.AddressHex recipient) (ethValue tx.Value).String)
    (pushTitle (ethValue tx.Value).String)
    (pushUrl tx.Hash.Hex)

/-- An ASCII letter byte in lower case, any other byte unchanged. -/
def asciiLower (b : Byte) : Byte :=
  if 65 ≤ b.val ∧ b.val ≤ 90 then Fin.ofNat (b.val + 32) else b

/-! ## Sample inputs -/

/-- A stand-in for signature recovery: the sender is read off the payload; a
payload of `0` is a signature that cannot be recovered. -/
def sampleSender : Signer → Transaction → Address × GoError :=
  fun _ tx =>
    if tx.payload = 0 then (zeroAddress, some "invalid signature")
    else (BytesToAddress [Fin.ofNat tx.payload], none)

/-- A stand-in for `Address.Hex`: two addresses shown as in the scenario of the
specification. -/
def sampleHex : Address → String :=
  fun a => if a = BytesToAddress [171] then "0xABCD..." else "0x1234..."

/-- A provider answer with status 200. -/
def okResponse : Response :=
  { StatusCode := 200, Body := .ok "" }

/-- A provider answer with status 500 and a body. -/
def errResponse : Response :=
  { StatusCode := 500, Body := .ok "internal error" }

/-- The flags of the sample runs: the monitored address is `0x00..ab`, written
in upper case. -/
def sampleFlags : Flags :=
  { your_infura_token_here := "t", monitor_address := "0xAB", api_key := "k", user_key := "u" }

/-- A transaction of the given type and sender payload, with a recipient. -/
def sampleTx (ty : Byte) (sender : Nat) (hash : Byte) : Transaction :=
  { TxType := ty, ChainId := 1, To := some (BytesToAddress [18]),
    Value := 1500000000000000000, Hash := { bytes := [hash] }, payload := sender }

/-- A contract creation (no recipient) sent by the given payload. -/
def creationTx (sender : Nat) (hash : Byte) : Transaction :=
  { TxType := 2, ChainId := 1, To := none, Value := 0, Hash := { bytes := [hash] },
    payload := sender }

/-- A world serving the given blocks by feed position, whose provider answers
every POST with `resp`; a position without a block is a failed fetch. -/
def sampleWorld (blocks : List (Option (List Transaction))) (resp : Response) : World :=
  { Dial := .ok (),
    SubscribeNewHead := .ok (),
    Sender := sampleSender,
    AddressHex := sampleHex,
    BlockByNumber := fun i _ =>
      match blocks.getD i none with
      | some txs => .ok { Transactions := txs }
      | none => .error "block not found",
    Post := fun _ _ _ => .ok resp }

/-- The payload of the scenario of the specification as it goes on the wire:
the object `json.Marshal` writes for the five strings of the notification, with
`>` escaped. -/
def samplePayload : String :=
  "\x7b\"token\":\"k\",\"user\":\"u\",\"message\":\"0xABCD... -\\u003e 0x1234... : 1.5 ETH\"," ++
  "\"url\":\"https://etherscan.io/tx/0x01\",\"title\":\"1.5 ETH\"\x7d"

/-- A world whose provider answers 200 to a POST of exactly `payload`, and 500
to a POST of anything else. -/
def expectingWorld (payload : String) : World :=
  { Dial := .ok (),
    SubscribeNewHead := .ok (),
    Sender := sampleSender,
    AddressHex := sampleHex,
    BlockByNumber := fun _ _ => .error "block not found",
    Post := fun _ _ data => if data = payload.data then .ok okResponse else .ok errResponse }

/-- Number of notification calls in a trace whose url is the explorer link of
transaction `tx`. -/
def notifiedCount (evs : List Event) (tx : Transaction) : Nat :=
  (evs.filter (fun e => match e with
    | Event.notify _ _ _ _ url => url == pushUrl tx.Hash.Hex
    | _ => false)).length

/-! ## `getMessageSender` -/

/-- C2: `getMessageSender tx c` is `types.Sender` with the EIP-155 signer of `c`
for a legacy transaction (type 0), `types.Sender` with the latest signer of `c`
for types 1 and 2, and for every other type tag the zero address with the error
`transaction type not supported: <tag in decimal>`, whatever `types.Sender`
would do (no recovery is attempted). -/
theorem getMessageSender_by_type (Sender : Signer → Transaction → Address × GoError)
    (tx : Transaction) (c : Int) :
    (tx.TxType.val = 0 →
      getMessageSender Sender tx c = Sender (Signer.NewEIP155Signer c) tx) ∧
    (tx.TxType.val = 1 ∨ tx.TxType.val = 2 →
      getMessageSender Sender tx c = Sender (Signer.LatestSignerForChainID c) tx) ∧
    (tx.TxType.val ≠ 0 ∧ tx.TxType.val ≠ 1 ∧ tx.TxType.val ≠ 2 →
      ∀ Sender2 : Signer → Transaction → Address × GoError,
        getMessageSender Sender2 tx c =
          (zeroAddress, some ("transaction type not supported: " ++ toString tx.TxType.val))) := by
  refine ⟨?_, ?_, ?_⟩
  · intro h
    simp [getMessageSender, h]
  · intro h
    have h0 : tx.TxType.val ≠ 0 := by omega
    simp [getMessageSender, h0, h]
  · rintro ⟨h0, h1, h2⟩ Sender2
    simp [getMessageSender, h0, h1, h2]

/-- Witness of C2 on a legacy, an access-list and an unsupported (type 3)
transaction; the error text of the last one is spelled out. -/
theorem getMessageSender_by_type_witness :
    getMessageSender sampleSender (sampleTx 0 171 1) 1
        = sampleSender (Signer.NewEIP155Signer 1) (sampleTx 0 171 1) ∧
    getMessageSender sampleSender (sampleTx 1 171 1) 1
        = sampleSender (Signer.LatestSignerForChainID 1) (sampleTx 1 171 1) ∧
    getMessageSender sampleSender (sampleTx 3 171 1) 1
        = (zeroAddress, some "transaction type not supported: 3") :=
  ⟨(getMessageSender_by_type sampleSender (sampleTx 0 171 1) 1).1 (by decide),
   (getMessageSender_by_type sampleSender (sampleTx 1 171 1) 1).2.1 (by decide),
   (getMessageSender_by_type sampleSender (sampleTx 3 171 1) 1).2.2 (by decide) sampleSender⟩

/-! ## `sendPushNotification` -/

/-- Marshalling the request body always succeeds. -/
theorem jsonMarshal_ok (b : PushoverRequestBody) : ∃ data, jsonMarshal b = .ok data :=
  ⟨_, rfl⟩

/-- The result of `sendPushNotification` once the POST has answered. -/
theorem sendPushNotification_of_response (post : List Char → Except String Response)
    (apiKey userKey message title url : String) (data : List Char) (resp : Response)
    (hm : jsonMarshal (requestBody apiKey userKey message title url) = .ok data)
    (hp : post data = .ok resp) :
    sendPushNotification post apiKey userKey message title url =
      if resp.StatusCode ≠ 200 then
        match resp.Body with
        | .error _ => some "failed to read response body"
        | .ok body => some ("failed to send push notification : " ++ body)
      else none := by
  unfold sendPushNotification
  rw [hm]
  simp only []
  rw [hp]

/-- C5: when the POST completes with a response, `sendPushNotification` returns
`nil` exactly when the status code is 200; for any other status the error is
`failed to send push notification : ` followed by the whole body when the body
can be read, and `failed to read response body` when it cannot. -/
theorem sendPushNotification_status (post : List Char → Except String Response)
    (apiKey userKey message title url : String) (resp : Response)
    (hpost : ∀ data, jsonMarshal (requestBody apiKey userKey message title url) = .ok data →
      post data = .ok resp) :
    (sendPushNotification post apiKey userKey message title url = none ↔ resp.StatusCode = 200) ∧
    (resp.StatusCode ≠ 200 → ∀ body, resp.Body = .ok body →
      sendPushNotification post apiKey userKey message title url
        = some ("failed to send push notification : " ++ body)) ∧
    (resp.StatusCode ≠ 200 → ∀ err, resp.Body = .error err →
      sendPushNotification post apiKey userKey message title url
        = some "failed to read response body") := by
  obtain ⟨data, hm⟩ := jsonMarshal_ok (requestBody apiKey userKey message title url)
  have hs := sendPushNotification_of_response post apiKey userKey message title url data resp
    hm (hpost data hm)
  refine ⟨?_, ?_, ?_⟩
  · constructor
    · intro h
      by_contra hne
      rw [hs, if_pos hne] at h
      cases hb : resp.Body <;> simp [hb] at h
    · intro h
      rw [hs]
      simp [h]
  · intro hne body hb
    rw [hs, if_pos hne, hb]
  · intro hne err hb
    rw [hs, if_pos hne, hb]

/-- Witness of C5: a 500 answer with body `internal error`. -/
theorem sendPushNotification_status_witness :
    (sendPushNotification (fun _ => .ok errResponse) "k" "u" "m" "t" "l" = none
      ↔ errResponse.StatusCode = 200) ∧
    sendPushNotification (fun _ => .ok errResponse) "k" "u" "m" "t" "l"
      = some "failed to send push notification : internal error" :=
  ⟨(sendPushNotification_status (fun _ => .ok errResponse) "k" "u" "m" "t" "l" errResponse
      (fun _ _ => rfl)).1,
   (sendPushNotification_status (fun _ => .ok errResponse) "k" "u" "m" "t" "l" errResponse
      (fun _ _ => rfl)).2.1 (by decide) "internal error" rfl⟩

/-! ## The loop body, case by case -/

/-- A transaction whose sender cannot be resolved: the error is logged and the
loop goes on. -/
theorem processTx_of_error (w : World) (f : Flags) (A : Address) (i j : Nat) (tx : Transaction)
    (err : String) (h : (getMessageSender w.Sender tx tx.ChainId).2 = some err) :
    processTx w f A i j tx = ([Event.logged err], Flow.next) := by
  simp [processTx, h]

/-- A transaction of another sender: nothing happens. -/
theorem processTx_of_other (w : World) (f : Flags) (A : Address) (i j : Nat) (tx : Transaction)
    (h : (getMessageSender w.Sender tx tx.ChainId).2 = none)
    (hne : (getMessageSender w.Sender tx tx.ChainId).1 ≠ A) :
    processTx w f A i j tx = ([], Flow.next) := by
  simp [processTx, h, hne]

/-- A transaction that is no match produces no notification and lets the loop
go on. -/
theorem processTx_of_not_match (w : World) (f : Flags) (A : Address) (i j : Nat)
    (tx : Transaction) (h : isMatch w A tx = false) :
    notifications (processTx w f A i j tx).1 = [] ∧ (processTx w f A i j tx).2 = Flow.next := by
  cases he : (getMessageSender w.Sender tx tx.ChainId).2 with
  | some err =>
      rw [processTx_of_error w f A i j tx err he]
      exact ⟨rfl, rfl⟩
  | none =>
      have hne : (getMessageSender w.Sender tx tx.ChainId).1 ≠ A := by
        intro heq
        simp [isMatch, he, heq] at h
      rw [processTx_of_other w f A i j tx he hne]
      exact ⟨rfl, rfl⟩

/-- A match without a recipient: three lines are printed and line 66 panics. -/
theorem processTx_of_creation (w : World) (f : Flags) (A : Address) (i j : Nat)
    (tx : Transaction) (h : isMatch w A tx = true) (hto : tx.To = none) :
    processTx w f A i j tx =
      ([Event.printed "New outgoing transaction:\n",
        Event.printed ("\tTx Hash: " ++ tx.Hash.Hex ++ "\n"),
        Event.printed ("\tFrom: " ++ w.AddressHex (getMessageSender w.Sender tx tx.ChainId).1
          ++ "\n")], Flow.crash) := by
  simp only [isMatch, decide_eq_true_eq] at h
  simp [processTx, h.1, h.2, hto]

/-- A match with a recipient: five lines are printed, `sendPushNotification` is
called once, and its result decides whether the loop goes on. -/
theorem processTx_of_match (w : World) (f : Flags) (A : Address) (i j : Nat)
    (tx : Transaction) (R : Address) (h : isMatch w A tx = true) (hto : tx.To = some R) :
    notifications (processTx w f A i j tx).1 = (notifyOf w f tx).toList ∧
    (notifyOf w f tx).isSome = true ∧
    (processTx w f A i j tx).2 = (if dispatch w f i j tx R = none then Flow.next else Flow.stop) := by
  simp only [isMatch, decide_eq_true_eq] at h
  cases hd : dispatch w f i j tx R with
  | none =>
      have hd2 := hd
      simp only [dispatch, h.2] at hd2
      simp [processTx, h.1, h.2, hto, hd2, notifyOf, notifications]
  | some err =>
      have hd2 := hd
      simp only [dispatch, h.2] at hd2
      simp [processTx, h.1, h.2, hto, hd2, notifyOf, notifications]

/-! ## The loop over a block -/

/-- The inner loop on a transaction after which the loop goes on. -/
theorem processTxs_cons_next (w : World) (f : Flags) (A : Address) (i j : Nat)
    (tx : Transaction) (rest : List Transaction) (h : (processTx w f A i j tx).2 = Flow.next) :
    processTxs w f A i j (tx :: rest) =
      ((processTx w f A i j tx).1 ++ (processTxs w f A i (j + 1) rest).1,
        (processTxs w f A i (j + 1) rest).2) := by
  simp [processTxs, h]

/-- The inner loop on a transaction that ends it: nothing after it is run. -/
theorem processTxs_cons_end (w : World) (f : Flags) (A : Address) (i j : Nat)
    (tx : Transaction) (rest : List Transaction) (h : (processTx w f A i j tx).2 ≠ Flow.next) :
    processTxs w f A i j (tx :: rest) = processTx w f A i j tx := by
  cases hfl : (processTx w f A i j tx).2 with
  | next => exact absurd hfl h
  | stop =>
      simp only [processTxs, hfl]
      exact Prod.ext rfl hfl.symm
  | crash =>
      simp only [processTxs, hfl]
      exact Prod.ext rfl hfl.symm

/-- A prefix of the block after which the loop goes on: the rest of the block
is processed after it, with the transaction indices that follow. -/
theorem processTxs_append (w : World) (f : Flags) (A : Address) (i : Nat)
    (pre rest : List Transaction) (j : Nat)
    (h : (processTxs w f A i j pre).2 = Flow.next) :
    processTxs w f A i j (pre ++ rest) =
      ((processTxs w f A i j pre).1 ++ (processTxs w f A i (j + pre.length) rest).1,
        (processTxs w f A i (j + pre.length) rest).2) := by
  induction pre generalizing j with
  | nil => simp [processTxs]
  | cons tx pre ih =>
      by_cases hn : (processTx w f A i j tx).2 = Flow.next
      · rw [processTxs_cons_next w f A i j tx pre hn] at h
        rw [List.cons_append, processTxs_cons_next w f A i j tx (pre ++ rest) hn,
          processTxs_cons_next w f A i j tx pre hn, ih (j + 1) h]
        simp only [List.length_cons, List.append_assoc]
        rw [show j + 1 + pre.length = j + (pre.length + 1) by omega]
      · rw [processTxs_cons_end w f A i j tx pre hn] at h
        exact absurd h hn

/-- The notifications of a trace made of two parts. -/
theorem notifications_append (a b : List Event) :
    notifications (a ++ b) = notifications a ++ notifications b := by
  simp [notifications]

/-- A block in which every dispatch succeeds and every match has a recipient:
the notifications are those of the matches, in block order, and the loop goes
on to the next header. -/
theorem processTxs_all_dispatched (w : World) (f : Flags) (A : Address) (i : Nat)
    (txs : List Transaction) (j : Nat)
    (hdisp : ∀ k tx R, txs[k]? = some tx → isMatch w A tx = true → tx.To = some R →
      dispatch w f i (j + k) tx R = none)
    (hrec : ∀ tx ∈ txs, isMatch w A tx = true → tx.To ≠ none) :
    (notifications (processTxs w f A i j txs).1).map some
        = (txs.filter (isMatch w A)).map (notifyOf w f) ∧
      (processTxs w f A i j txs).2 = Flow.next := by
  induction txs generalizing j with
  | nil => simp [processTxs, notifications]
  | cons tx rest ih =>
      have hrest := ih (j + 1)
        (fun k t R hk hm ht => by
          have := hdisp (k + 1) t R (by simpa using hk) hm ht
          rw [show j + 1 + k = j + (k + 1) by omega]
          exact this)
        (fun t ht hm => hrec t (List.mem_cons_of_mem _ ht) hm)
      cases hm : isMatch w A tx with
      | false =>
          have h0 := processTx_of_not_match w f A i j tx hm
          rw [processTxs_cons_next w f A i j tx rest h0.2]
          simp only [notifications_append, h0.1, List.nil_append]
          refine ⟨?_, hrest.2⟩
          rw [hrest.1]
          simp [List.filter_cons, hm]
      | true =>
          have hto : tx.To ≠ none := hrec tx (List.mem_cons_self _ _) hm
          obtain ⟨R, hR⟩ := Option.ne_none_iff_exists'.mp hto
          have hd : dispatch w f i j tx R = none := by
            have := hdisp 0 tx R (by simp) hm hR
            simpa using this
          have h1 := processTx_of_match w f A i j tx R hm hR
          rw [hd] at h1
          obtain ⟨ev, hev⟩ := Option.isSome_iff_exists.mp h1.2.1
          have hnext : (processTx w f A i j tx).2 = Flow.next := by simpa using h1.2.2
          rw [processTxs_cons_next w f A i j tx rest hnext]
          simp only [notifications_append, h1.1, List.map_append]
          refine ⟨?_, hrest.2⟩
          rw [hrest.1]
          simp [List.filter_cons, hm, hev]

/-! ## The monitored address does not depend on letter case -/

set_option maxRecDepth 100000 in
/-- A hexadecimal digit has the same value in either case. -/
theorem fromHexChar_asciiLower : ∀ b : Byte, fromHexChar (asciiLower b) = fromHexChar b := by
  decide

set_option maxRecDepth 100000 in
/-- Only the byte `0` is the byte `0` after lowering. -/
theorem asciiLower_eq_zero_digit :
    ∀ b : Byte, decide ((asciiLower b).val = 48) = decide (b.val = 48) := by
  decide

set_option maxRecDepth 100000 in
/-- The letter `x` is recognised in either case. -/
theorem asciiLower_is_x : ∀ b : Byte,
    (decide ((asciiLower b).val = 120) || decide ((asciiLower b).val = 88))
      = (decide (b.val = 120) || decide (b.val = 88)) := by
  decide

/-- Decoding hexadecimal digits ignores their case. -/
theorem Hex2Bytes_asciiLower : ∀ l : List Byte, Hex2Bytes (l.map asciiLower) = Hex2Bytes l
  | [] => rfl
  | [_] => rfl
  | p :: q :: rest => by
      simp only [List.map_cons, Hex2Bytes, fromHexChar_asciiLower, Hex2Bytes_asciiLower rest]

/-- The `0x` test ignores case. -/
theorem has0x_asciiLower (l : List Byte) : has0x (l.map asciiLower) = has0x l := by
  match l with
  | [] => rfl
  | [_] => rfl
  | a :: b :: rest =>
      simp only [List.map_cons, has0x, asciiLower_eq_zero_digit, asciiLower_is_x]

/-- `FromHex` ignores the case of its input. -/
theorem FromHex_asciiLower (l : List Byte) : FromHex (l.map asciiLower) = FromHex l := by
  have h48 : asciiLower (48 : Byte) = 48 := by decide
  have hdrop : (if has0x l = true then (l.map asciiLower).drop 2 else l.map asciiLower)
      = (if has0x l = true then l.drop 2 else l).map asciiLower := by
    split <;> simp [List.map_drop]
  unfold FromHex
  simp only [has0x_asciiLower, hdrop, List.length_map]
  by_cases hodd : (if has0x l = true then l.drop 2 else l).length % 2 = 1
  · simp only [hodd, if_true]
    have h := Hex2Bytes_asciiLower ((48 : Byte) :: (if has0x l = true then l.drop 2 else l))
    rw [List.map_cons, h48] at h
    exact h
  · simp only [hodd, if_false]
    exact Hex2Bytes_asciiLower _

/-- Two spellings of an address that differ only in letter case give the same
20 bytes. -/
theorem HexToAddress_case (s1 s2 : String)
    (h : (goBytes s1).map asciiLower = (goBytes s2).map asciiLower) :
    HexToAddress s1 = HexToAddress s2 := by
  unfold HexToAddress
  rw [← FromHex_asciiLower (goBytes s1), h, FromHex_asciiLower]

/-! ## The match decision (C1) -/

/-- C1, as stated, fails: in a block of two transactions that both come from the
monitored address, the dispatch for the first fails (status 500), the loop
returns at line 74, and the second transaction, whose sender resolves to the
monitored address, gets no notification. -/
theorem match_after_failed_dispatch_not_notified :
    (getMessageSender sampleSender (sampleTx 0 171 2) (sampleTx 0 171 2).ChainId).2 = none ∧
    (getMessageSender sampleSender (sampleTx 0 171 2) (sampleTx 0 171 2).ChainId).1
      = HexToAddress sampleFlags.monitor_address ∧
    notifiedCount (main (sampleWorld [some [sampleTx 0 171 1, sampleTx 0 171 2]] errResponse)
      sampleFlags [{ Number := 7 }]).1 (sampleTx 0 171 2) = 0 := by
  decide

/-- The loop body reads only the two keys of the flags. -/
theorem processTx_flags (w : World) (f1 f2 : Flags) (A : Address) (i j : Nat) (tx : Transaction)
    (h1 : f1.api_key = f2.api_key) (h2 : f1.user_key = f2.user_key) :
    processTx w f1 A i j tx = processTx w f2 A i j tx := by
  simp only [processTx, h1, h2]

/-- The loop over a block reads only the two keys of the flags. -/
theorem processTxs_flags (w : World) (f1 f2 : Flags) (A : Address) (i : Nat)
    (txs : List Transaction) (j : Nat)
    (h1 : f1.api_key = f2.api_key) (h2 : f1.user_key = f2.user_key) :
    processTxs w f1 A i j txs = processTxs w f2 A i j txs := by
  induction txs generalizing j with
  | nil => rfl
  | cons tx rest ih =>
      simp only [processTxs, processTx_flags w f1 f2 A i j tx h1 h2, ih (j + 1)]

/-- The loop over the headers reads only the two keys of the flags. -/
theorem monitorLoop_flags (w : World) (f1 f2 : Flags) (A : Address)
    (headers : List Header) (i : Nat)
    (h1 : f1.api_key = f2.api_key) (h2 : f1.user_key = f2.user_key) :
    monitorLoop w f1 A i headers = monitorLoop w f2 A i headers := by
  induction headers generalizing i with
  | nil => rfl
  | cons header rest ih =>
      have hh : processHeader w f1 A i header = processHeader w f2 A i header := by
        unfold processHeader
        cases w.BlockByNumber i header.Number with
        | error err => rfl
        | ok block => exact processTxs_flags w f1 f2 A i block.Transactions 0 h1 h2
      simp only [monitorLoop, hh, ih (i + 1)]

/-- C1, amended: for every transaction the loop evaluates (`processTx` is the
loop body) and that has a recipient, the match is printed and exactly one call
of `sendPushNotification` is made when sender recovery succeeds and the
recovered address equals the monitored address as 20 bytes, and no call is made
otherwise; without any condition on the recipient, a transaction whose sender
differs or cannot be recovered produces no notification and nothing but the
logged error, and lets the loop go on; and two runs of `main` whose configured
address strings differ only in letter case are the same run. -/
theorem processTx_match_iff (w : World) (f : Flags) (A : Address) (i j : Nat)
    (tx : Transaction) :
    (∀ R, tx.To = some R →
      (((notifications (processTx w f A i j tx).1).length = 1
          ∧ Event.printed "New outgoing transaction:\n" ∈ (processTx w f A i j tx).1) ↔
        ((getMessageSender w.Sender tx tx.ChainId).2 = none
          ∧ (getMessageSender w.Sender tx tx.ChainId).1 = A))) ∧
    (¬ ((getMessageSender w.Sender tx tx.ChainId).2 = none
          ∧ (getMessageSender w.Sender tx tx.ChainId).1 = A) →
      notifications (processTx w f A i j tx).1 = []
        ∧ ((processTx w f A i j tx).1 = [] ∨ ∃ err, (processTx w f A i j tx).1 = [Event.logged err])
        ∧ (processTx w f A i j tx).2 = Flow.next) ∧
    (∀ (s1 s2 : String) (headers : List Header),
      (goBytes s1).map asciiLower = (goBytes s2).map asciiLower →
      main w { f with monitor_address := s1 } headers
        = main w { f with monitor_address := s2 } headers) := by
  have hno : ¬ ((getMessageSender w.Sender tx tx.ChainId).2 = none
          ∧ (getMessageSender w.Sender tx tx.ChainId).1 = A) →
      notifications (processTx w f A i j tx).1 = []
        ∧ ((processTx w f A i j tx).1 = [] ∨ ∃ err, (processTx w f A i j tx).1 = [Event.logged err])
        ∧ (processTx w f A i j tx).2 = Flow.next := by
    intro h
    have hm : isMatch w A tx = false := by simpa [isMatch] using h
    obtain ⟨h1, h2⟩ := processTx_of_not_match w f A i j tx hm
    refine ⟨h1, ?_, h2⟩
    cases he : (getMessageSender w.Sender tx tx.ChainId).2 with
    | some err =>
        right
        exact ⟨err, by rw [processTx_of_error w f A i j tx err he]⟩
    | none =>
        left
        have hne : (getMessageSender w.Sender tx tx.ChainId).1 ≠ A := fun heq => h ⟨he, heq⟩
        rw [processTx_of_other w f A i j tx he hne]
  refine ⟨?_, hno, ?_⟩
  · intro R hR
    constructor
    · intro hlen
      by_contra hn
      rw [(hno hn).1] at hlen
      simp at hlen
    · intro hm
      have hm2 : isMatch w A tx = true := by simpa [isMatch] using hm
      have h1 := processTx_of_match w f A i j tx R hm2 hR
      obtain ⟨ev, hev⟩ := Option.isSome_iff_exists.mp h1.2.1
      refine ⟨by rw [h1.1, hev]; rfl, ?_⟩
      simp only [processTx, hm.1, hm.2, hR, if_true]
      split <;> simp
  · intro s1 s2 headers h
    simp only [main, HexToAddress_case s1 s2 h,
      monitorLoop_flags w { f with monitor_address := s1 } { f with monitor_address := s2 }
        (HexToAddress s2) headers 0 rfl rfl]

set_option maxRecDepth 100000 in
/-- Witness of the amended C1: a legacy transaction from the monitored address
`0x00..ab`, and a run with the address spelled `0xab` instead of `0xAB`. -/
theorem processTx_match_iff_witness :
    (notifications (processTx (sampleWorld [] okResponse) sampleFlags (BytesToAddress [171]) 0 0
      (sampleTx 0 171 1)).1).length = 1 ∧
    main (sampleWorld [some [sampleTx 0 171 1]] okResponse)
        { sampleFlags with monitor_address := "0xab" } [{ Number := 7 }]
      = main (sampleWorld [some [sampleTx 0 171 1]] okResponse)
        { sampleFlags with monitor_address := "0xAB" } [{ Number := 7 }] :=
  ⟨(((processTx_match_iff (sampleWorld [] okResponse) sampleFlags (BytesToAddress [171]) 0 0
      (sampleTx 0 171 1)).1 (BytesToAddress [18]) rfl).2 ⟨by decide, by decide⟩).1,
   (processTx_match_iff (sampleWorld [some [sampleTx 0 171 1]] okResponse) sampleFlags
      (BytesToAddress [171]) 0 0 (sampleTx 0 171 1)).2.2 "0xab" "0xAB" [{ Number := 7 }]
      (by decide)⟩

/-! ## A match without a recipient (C6) -/

set_option maxRecDepth 100000 in
/-- C6 does not hold of the code: for a contract creation sent by the monitored
address the run prints the first three lines of the match and panics at line
66; `sendPushNotification` is never reached. -/
theorem creation_match_panics :
    main (sampleWorld [some [creationTx 171 1]] okResponse) sampleFlags [{ Number := 7 }] =
      ([Event.printed "Monitoring address: 0xABCD...\n",
        Event.printed "New outgoing transaction:\n",
        Event.printed "\tTx Hash: 0x01\n",
        Event.printed "\tFrom: 0xABCD...\n"], Exit.panicked) ∧
    notifications (main (sampleWorld [some [creationTx 171 1]] okResponse) sampleFlags
      [{ Number := 7 }]).1 = [] := by
  decide

/-! ## Isolation of sender-resolution failures (C7) -/

/-- A transaction the loop reaches on which `getMessageSender` fails: the error
is logged and the transactions after it are processed as usual. -/
theorem processTxs_resolution_error (w : World) (f : Flags) (A : Address) (i : Nat)
    (pre : List Transaction) (tx : Transaction) (rest : List Transaction) (err : String)
    (hpre : (processTxs w f A i 0 pre).2 = Flow.next)
    (herr : (getMessageSender w.Sender tx tx.ChainId).2 = some err) :
    processTxs w f A i 0 (pre ++ tx :: rest) =
      ((processTxs w f A i 0 pre).1 ++ Event.logged err ::
          (processTxs w f A i (pre.length + 1) rest).1,
        (processTxs w f A i (pre.length + 1) rest).2) := by
  have h1 := processTx_of_error w f A i (0 + pre.length) tx err herr
  rw [processTxs_append w f A i pre (tx :: rest) 0 hpre,
    processTxs_cons_next w f A i (0 + pre.length) tx rest (by rw [h1]), h1]
  simp

set_option maxRecDepth 100000 in
/-- C7 does not hold of the code: in a block of two transactions that both come
from the monitored address, the first of them a contract creation, no
transaction fails resolution and the provider answers 200 to every POST (the
dispatch for the second transaction returns `nil`), yet the run panics at line
66 on the first transaction and sends no notification at all, although the
transactions whose sender resolves to the monitored address are the whole
block. -/
theorem matches_after_creation_not_notified :
    [creationTx 171 1, sampleTx 0 171 2].filter
        (isMatch (sampleWorld [some [creationTx 171 1, sampleTx 0 171 2]] okResponse)
          (HexToAddress sampleFlags.monitor_address))
      = [creationTx 171 1, sampleTx 0 171 2] ∧
    dispatch (sampleWorld [some [creationTx 171 1, sampleTx 0 171 2]] okResponse) sampleFlags
      0 1 (sampleTx 0 171 2) (BytesToAddress [18]) = none ∧
    main (sampleWorld [some [creationTx 171 1, sampleTx 0 171 2]] okResponse) sampleFlags
        [{ Number := 7 }] =
      ([Event.printed "Monitoring address: 0xABCD...\n",
        Event.printed "New outgoing transaction:\n",
        Event.printed "\tTx Hash: 0x01\n",
        Event.printed "\tFrom: 0xABCD...\n"], Exit.panicked) ∧
    notifications (main (sampleWorld [some [creationTx 171 1, sampleTx 0 171 2]] okResponse)
      sampleFlags [{ Number := 7 }]).1 = [] := by
  decide

/-! ## The loop over the headers (C8, C9) -/

/-- A header whose block cannot be fetched: the error is logged, no transaction
is evaluated and the loop goes on with the next header. -/
theorem monitorLoop_fetch_error (w : World) (f : Flags) (A : Address) (i : Nat)
    (header : Header) (rest : List Header) (err : String)
    (h : w.BlockByNumber i header.Number = .error err) :
    monitorLoop w f A i (header :: rest) =
      (Event.logged err :: (monitorLoop w f A (i + 1) rest).1,
        (monitorLoop w f A (i + 1) rest).2) := by
  simp [monitorLoop, processHeader, h]

/-- A header whose processing lets the loop go on: the next headers are
processed after it, and what they produce does not depend on it. -/
theorem monitorLoop_cons_next (w : World) (f : Flags) (A : Address) (i : Nat)
    (header : Header) (rest : List Header)
    (h : (processHeader w f A i header).2 = Flow.next) :
    monitorLoop w f A i (header :: rest) =
      ((processHeader w f A i header).1 ++ (monitorLoop w f A (i + 1) rest).1,
        (monitorLoop w f A (i + 1) rest).2) := by
  simp [monitorLoop, h]

/-- A header whose processing ends the loop: no later header is processed. -/
theorem monitorLoop_cons_end (w : World) (f : Flags) (A : Address) (i : Nat)
    (header : Header) (rest : List Header)
    (h : (processHeader w f A i header).2 ≠ Flow.next) :
    monitorLoop w f A i (header :: rest) = processHeader w f A i header := by
  cases hfl : (processHeader w f A i header).2 with
  | next => exact absurd hfl h
  | stop =>
      simp only [monitorLoop, hfl]
      exact Prod.ext rfl hfl.symm
  | crash =>
      simp only [monitorLoop, hfl]
      exact Prod.ext rfl hfl.symm

/-- A failed dispatch ends the block: the error is logged last and nothing
after the transaction is run. -/
theorem processTxs_dispatch_error (w : World) (f : Flags) (A : Address) (i j : Nat)
    (tx : Transaction) (rest : List Transaction) (R : Address) (err : String)
    (hm : isMatch w A tx = true) (hto : tx.To = some R)
    (hd : dispatch w f i j tx R = some err) :
    processTxs w f A i j (tx :: rest) = processTx w f A i j tx ∧
    (processTx w f A i j tx).2 = Flow.stop ∧
    (processTx w f A i j tx).1.getLast? = some (Event.logged err) := by
  have h1 := processTx_of_match w f A i j tx R hm hto
  rw [hd] at h1
  have hstop : (processTx w f A i j tx).2 = Flow.stop := by simpa using h1.2.2
  refine ⟨processTxs_cons_end w f A i j tx rest (by rw [hstop]; decide), hstop, ?_⟩
  simp only [isMatch, decide_eq_true_eq] at hm
  have hd2 := hd
  simp only [dispatch, hm.2] at hd2
  simp [processTx, hm.1, hm.2, hto, hd2]

set_option maxRecDepth 100000 in
/-- C8 does not hold of the code: with the same two headers, when the fetch for
the first fails the match in the second block is notified, and when the fetch
succeeds and the first block holds a contract creation sent by the monitored
address the run panics at line 66, without any dispatch having failed, and the
second header is never processed. -/
theorem next_header_depends_on_fetch :
    notifiedCount (main (sampleWorld [none, some [sampleTx 0 171 2]] okResponse) sampleFlags
      [{ Number := 7 }, { Number := 8 }]).1 (sampleTx 0 171 2) = 1 ∧
    main (sampleWorld [some [creationTx 171 1], some [sampleTx 0 171 2]] okResponse) sampleFlags
      [{ Number := 7 }, { Number := 8 }] =
      ([Event.printed "Monitoring address: 0xABCD...\n",
        Event.printed "New outgoing transaction:\n",
        Event.printed "\tTx Hash: 0x01\n",
        Event.printed "\tFrom: 0xABCD...\n"], Exit.panicked) := by
  decide

set_option maxRecDepth 100000 in
/-- C9 does not hold of the code: a run can end in a third way. Here the first
transaction comes from another address, the second is a contract creation sent
by the monitored address: line 66 panics, no notification was attempted, no
error was logged, and neither the third transaction nor the second header the
feed delivers is processed. -/
theorem loop_ends_by_panic :
    main (sampleWorld [some [sampleTx 0 5 1, creationTx 171 2, sampleTx 0 171 3],
        some [sampleTx 0 171 4]] okResponse) sampleFlags [{ Number := 7 }, { Number := 8 }] =
      ([Event.printed "Monitoring address: 0xABCD...\n",
        Event.printed "New outgoing transaction:\n",
        Event.printed "\tTx Hash: 0x02\n",
        Event.printed "\tFrom: 0xABCD...\n"], Exit.panicked) := by
  decide

/-! ## The wire form decodes to the request body (C10) -/

/-- The decoder reads back the hexadecimal digits the encoder writes. -/
theorem hexVal_hexDigit : ∀ k : Fin 16, hexVal (hexDigit k.val) = some k.val := by
  decide

/-- One character: the decoder, started on what the encoder wrote for `c`,
takes one step and holds `c`. -/
theorem unquoteAux_encodeChar (c : Char) (fuel : Nat) (tail acc : List Char) :
    unquoteAux (fuel + 1) (encodeChar c ++ tail) acc = unquoteAux fuel tail (c :: acc) := by
  by_cases hlt : c.toNat < 128
  · have hc : c = Char.ofNat c.toNat := (Char.ofNat_toNat c).symm
    generalize c.toNat = n at hc hlt
    subst hc
    interval_cases n <;> rfl
  · by_cases hsep : c.toNat = 8232 ∨ c.toNat = 8233
    · have hc : c = Char.ofNat c.toNat := (Char.ofNat_toNat c).symm
      generalize c.toNat = n at hc hsep
      subst hc
      rcases hsep with h | h <;> subst h <;> rfl
    · have h1 : c ≠ cQuote := by
        intro h
        apply hlt
        rw [h]
        decide
      have h2 : ¬ c.toNat < 32 := by omega
      have h3 : c ≠ cBackslash := by
        intro h
        apply hlt
        rw [h]
        decide
      simp only [encodeChar, if_neg hlt, if_neg hsep, List.cons_append, List.nil_append,
        unquoteAux, if_neg h1, if_neg h2, if_neg h3]
/-- A whole string: the decoder, started after the opening quote of what the
encoder wrote for `s`, returns `s` and the input after the closing quote. -/
theorem unquoteAux_encode (s : List Char) (fuel : Nat) (tail acc : List Char)
    (hfuel : s.length < fuel) :
    unquoteAux fuel (s.flatMap encodeChar ++ cQuote :: tail) acc
      = some (acc.reverse ++ s, tail) := by
  induction s generalizing fuel acc with
  | nil =>
      obtain ⟨k, rfl⟩ : ∃ k, fuel = k + 1 := ⟨fuel - 1, by simp at hfuel; omega⟩
      simp [unquoteAux]
  | cons c s ih =>
      obtain ⟨k, rfl⟩ : ∃ k, fuel = k + 1 := ⟨fuel - 1, by simp at hfuel; omega⟩
      rw [List.flatMap_cons, List.append_assoc, unquoteAux_encodeChar,
        ih k (c :: acc) (by simp at hfuel; omega)]
      simp

/-- The encoder writes at least one character for each character. -/
theorem length_le_encode (s : List Char) : s.length ≤ (s.flatMap encodeChar).length := by
  induction s with
  | nil => simp
  | cons c s ih =>
      have h1 : 1 ≤ (encodeChar c).length := by
        unfold encodeChar
        split_ifs <;> simp
      rw [List.flatMap_cons, List.length_append, List.length_cons]
      omega

/-- A string literal written by the encoder is read back by the decoder. -/
theorem parseString_encodeString (s tail : List Char) :
    parseString (encodeString s ++ tail) = some (s, tail) := by
  have hq : isSpace cQuote = false := by decide
  have h := unquoteAux_encode s ((s.flatMap encodeChar ++ cQuote :: tail).length + 1) tail []
    (by
      have := length_le_encode s
      simp only [List.length_append, List.length_cons]
      omega)
  simp only [parseString, encodeString, List.cons_append, List.append_assoc, List.nil_append,
    skipSpace, List.dropWhile_cons, hq, Bool.false_eq_true, if_false, if_true]
  simpa using h

/-- White space is not skipped over a character that is none. -/
theorem skipSpace_cons (c : Char) (tail : List Char) (h : isSpace c = false) :
    skipSpace (c :: tail) = c :: tail := by
  simp [skipSpace, List.dropWhile_cons, h]

/-- A member followed by a comma: the field is set and the next member read. -/
theorem parseMembers_comma (fuel : Nat) (key value : String) (tail : List Char)
    (b : PushoverRequestBody) :
    parseMembers (fuel + 1) (encodeField key value ++ ',' :: tail) b =
      (setField b key.data value.data).bind (fun b1 => parseMembers fuel tail b1) := by
  have hcolon : isSpace ':' = false := by decide
  have hcomma : isSpace ',' = false := by decide
  simp only [parseMembers, encodeField, List.append_assoc, List.cons_append,
    parseString_encodeString, skipSpace_cons _ _ hcolon, if_true]
  cases hset : setField b key.data value.data with
  | none => rfl
  | some b1 => simp [skipSpace_cons _ _ hcomma]

/-- The last member, followed by the closing brace: the field is set. -/
theorem parseMembers_end (fuel : Nat) (key value : String) (b : PushoverRequestBody) :
    parseMembers (fuel + 1) (encodeField key value ++ [cRBrace]) b =
      setField b key.data value.data := by
  have hcolon : isSpace ':' = false := by decide
  have hbrace : isSpace cRBrace = false := by decide
  have hne : cRBrace ≠ ',' := by decide
  simp only [parseMembers, encodeField, List.append_assoc, List.cons_append,
    parseString_encodeString, skipSpace_cons _ _ hcolon, if_true]
  cases hset : setField b key.data value.data with
  | none => rfl
  | some b1 =>
      have hs : skipSpace [cRBrace] = [cRBrace] := skipSpace_cons _ _ hbrace
      have hnil : skipSpace ([] : List Char) = [] := rfl
      simp only [hs, hnil, if_neg hne, and_self, if_true]
/-- The members of a body with a url, read into the zero body. -/
theorem parseMembers_with_url (T U M L Ti : String) (fuel : Nat) (hfuel : 5 ≤ fuel) :
    parseMembers fuel
      (encodeField "token" T ++ ',' :: (encodeField "user" U ++ ',' ::
        (encodeField "message" M ++ ',' :: (encodeField "url" L ++ ',' ::
          (encodeField "title" Ti ++ [cRBrace])))))
      { Token := "", User := "", Message := "", Url := "", Title := "" }
      = some { Token := T, User := U, Message := M, Url := L, Title := Ti } := by
  obtain ⟨k, rfl⟩ : ∃ k, fuel = k + 1 + 1 + 1 + 1 + 1 := ⟨fuel - 5, by omega⟩
  rw [parseMembers_comma]
  simp only [setField, if_true, Option.some_bind]
  rw [parseMembers_comma]
  simp only [setField, if_true, Option.some_bind, show ¬ "user".data = "token".data by decide,
    if_false]
  rw [parseMembers_comma]
  simp only [setField, if_true, Option.some_bind, show ¬ "message".data = "token".data by decide,
    show ¬ "message".data = "user".data by decide, if_false]
  rw [parseMembers_comma]
  simp only [setField, if_true, Option.some_bind, show ¬ "url".data = "token".data by decide,
    show ¬ "url".data = "user".data by decide, show ¬ "url".data = "message".data by decide,
    if_false]
  rw [parseMembers_end]
  simp only [setField, if_true, show ¬ "title".data = "token".data by decide,
    show ¬ "title".data = "user".data by decide, show ¬ "title".data = "message".data by decide,
    show ¬ "title".data = "url".data by decide, if_false]

/-- The members of a body without a url, read into the zero body: the field
`Url` keeps its zero value. -/
theorem parseMembers_without_url (T U M Ti : String) (fuel : Nat) (hfuel : 4 ≤ fuel) :
    parseMembers fuel
      (encodeField "token" T ++ ',' :: (encodeField "user" U ++ ',' ::
        (encodeField "message" M ++ ',' :: (encodeField "title" Ti ++ [cRBrace]))))
      { Token := "", User := "", Message := "", Url := "", Title := "" }
      = some { Token := T, User := U, Message := M, Url := "", Title := Ti } := by
  obtain ⟨k, rfl⟩ : ∃ k, fuel = k + 1 + 1 + 1 + 1 := ⟨fuel - 4, by omega⟩
  rw [parseMembers_comma]
  simp only [setField, if_true, Option.some_bind]
  rw [parseMembers_comma]
  simp only [setField, if_true, Option.some_bind, show ¬ "user".data = "token".data by decide,
    if_false]
  rw [parseMembers_comma]
  simp only [setField, if_true, Option.some_bind, show ¬ "message".data = "token".data by decide,
    show ¬ "message".data = "user".data by decide, if_false]
  rw [parseMembers_end]
  simp only [setField, if_true, show ¬ "title".data = "token".data by decide,
    show ¬ "title".data = "user".data by decide, show ¬ "title".data = "message".data by decide,
    show ¬ "title".data = "url".data by decide, if_false]

/-- An object whose first member is written by the encoder: decoding is reading
its members into the zero body. -/
theorem jsonUnmarshal_object (key value : String) (tail : List Char) :
    jsonUnmarshal (cLBrace :: (encodeField key value ++ tail)) =
      parseMembers ((encodeField key value ++ tail).length + 1) (encodeField key value ++ tail)
        { Token := "", User := "", Message := "", Url := "", Title := "" } := by
  have hb : isSpace cLBrace = false := by decide
  have hq : isSpace cQuote = false := by decide
  have hne : cQuote ≠ cRBrace := by decide
  have hform : encodeField key value ++ tail
      = cQuote :: (key.data.flatMap encodeChar ++ [cQuote] ++ ':' :: encodeString value.data
          ++ tail) := by
    simp [encodeField, encodeString]
  simp only [jsonUnmarshal, skipSpace_cons _ _ hb, if_true]
  rw [hform, skipSpace_cons _ _ hq]
  simp only [hne, false_and, if_false]

/-- C10: for all five strings, marshalling the request body that
`sendPushNotification` builds succeeds, and decoding the payload gives back a
body equal to the original in all five fields; for an empty url the payload is
the object of the four other members (no `url` key), and it decodes to the
body whose `Url` is empty. -/
theorem marshal_unmarshal_roundtrip (apiKey userKey message title url : String) :
    (∃ data, jsonMarshal (requestBody apiKey userKey message title url) = .ok data
      ∧ jsonUnmarshal data = some (requestBody apiKey userKey message title url)) ∧
    jsonMarshal (requestBody apiKey userKey message title "") =
      .ok (cLBrace :: (encodeField "token" apiKey ++ ',' :: (encodeField "user" userKey ++ ',' ::
        (encodeField "message" message ++ ',' :: (encodeField "title" title ++ [cRBrace]))))) ∧
    jsonUnmarshal (cLBrace :: (encodeField "token" apiKey ++ ',' ::
        (encodeField "user" userKey ++ ',' :: (encodeField "message" message ++ ',' ::
          (encodeField "title" title ++ [cRBrace]))))) =
      some (requestBody apiKey userKey message title "") := by
  have hempty : jsonUnmarshal (cLBrace :: (encodeField "token" apiKey ++ ',' ::
        (encodeField "user" userKey ++ ',' :: (encodeField "message" message ++ ',' ::
          (encodeField "title" title ++ [cRBrace]))))) =
      some (requestBody apiKey userKey message title "") := by
    rw [jsonUnmarshal_object, parseMembers_without_url]
    · rfl
    · simp only [List.length_append, List.length_cons, List.length_nil]
      omega
  refine ⟨?_, ?_, hempty⟩
  · by_cases hurl : url = ""
    · subst hurl
      refine ⟨_, rfl, ?_⟩
      simp only [requestBody, if_true, List.append_assoc, List.cons_append, List.nil_append]
      exact hempty
    · refine ⟨_, rfl, ?_⟩
      simp only [requestBody, if_neg hurl, List.append_assoc, List.cons_append, List.nil_append]
      rw [jsonUnmarshal_object, parseMembers_with_url]
      simp only [List.length_append, List.length_cons, List.length_nil]
      omega
  · simp [jsonMarshal, requestBody]

/-! ## The notification of a match (C4) -/

/-- The marshalling of a request body succeeds, and decoding the payload gives
the body back. -/
theorem jsonUnmarshal_jsonMarshal (b : PushoverRequestBody) :
    ∃ data, jsonMarshal b = .ok data ∧ jsonUnmarshal data = some b := by
  obtain ⟨T, U, M, L, Ti⟩ := b
  by_cases hurl : L = ""
  · subst hurl
    refine ⟨_, rfl, ?_⟩
    simp only [if_true, List.append_assoc, List.cons_append, List.nil_append]
    rw [jsonUnmarshal_object, parseMembers_without_url]
    simp only [List.length_append, List.length_cons, List.length_nil]
    omega
  · refine ⟨_, rfl, ?_⟩
    simp only [if_neg hurl, List.append_assoc, List.cons_append, List.nil_append]
    rw [jsonUnmarshal_object, parseMembers_with_url]
    simp only [List.length_append, List.length_cons, List.length_nil]
    omega

/-- A payload read off the result of the marshalling is the marshalling. -/
theorem jsonMarshal_of_toOption (b : PushoverRequestBody) (data : List Char)
    (h : (jsonMarshal b).toOption = some data) : jsonMarshal b = .ok data := by
  cases hb : jsonMarshal b with
  | error err => rw [hb] at h; cases h
  | ok d =>
      rw [hb] at h
      exact congrArg Except.ok (Option.some.inj h)

/-- C4: for a matched transaction with sender `S`, recipient `R`, rendered value
`V` and hash `H`, the one call of `sendPushNotification` has the message
`S.Hex() -> R.Hex() : V ETH`, the title `V ETH` and the url
`https://etherscan.io/tx/H.Hex()`, with the configured api key and user key.
For any five arguments, `sendPushNotification` posts one payload, whatever the
provider is: the marshalling of the body that holds the api key in `Token`, the
user key in `User` and the three strings in `Message`, `Url` and `Title`, a
payload that decodes to exactly that body, and the answer to that POST decides
what the function returns. For the matched transaction, the payload posted at
line 71 decodes to the body holding the configured keys and the three strings
above, and the provider's answer to it decides whether the loop goes on. -/
theorem notification_arguments (w : World) (f : Flags) (A : Address) (i j : Nat)
    (tx : Transaction) (S R : Address)
    (hs : getMessageSender w.Sender tx tx.ChainId = (S, none)) (hA : S = A)
    (hto : tx.To = some R) :
    notifications (processTx w f A i j tx).1 =
      [Event.notify f.api_key f.user_key
        (w.AddressHex S ++ " -> " ++ w.AddressHex R ++ " : " ++ (ethValue tx.Value).String
          ++ " ETH")
        ((ethValue tx.Value).String ++ " ETH")
        ("https://etherscan.io/tx/" ++ tx.Hash.Hex)] ∧
    (∀ apiKey userKey message title url : String, ∃ data : List Char,
      jsonMarshal
        { Token := apiKey, User := userKey, Message := message, Url := url, Title := title }
          = .ok data ∧
      jsonUnmarshal data = some
        { Token := apiKey, User := userKey, Message := message, Url := url, Title := title } ∧
      ∀ post : List Char → Except String Response,
        sendPushNotification post apiKey userKey message title url =
          match post data with
          | .error err => some err
          | .ok resp =>
              if resp.StatusCode ≠ 200 then
                match resp.Body with
                | .error _ => some "failed to read response body"
                | .ok body => some ("failed to send push notification : " ++ body)
              else none) ∧
    (∀ data : List Char,
      jsonMarshal
        { Token := f.api_key, User := f.user_key,
          Message := w.AddressHex S ++ " -> " ++ w.AddressHex R ++ " : "
            ++ (ethValue tx.Value).String ++ " ETH",
          Url := "https://etherscan.io/tx/" ++ tx.Hash.Hex,
          Title := (ethValue tx.Value).String ++ " ETH" } = .ok data →
      jsonUnmarshal data = some
        { Token := f.api_key, User := f.user_key,
          Message := w.AddressHex S ++ " -> " ++ w.AddressHex R ++ " : "
            ++ (ethValue tx.Value).String ++ " ETH",
          Url := "https://etherscan.io/tx/" ++ tx.Hash.Hex,
          Title := (ethValue tx.Value).String ++ " ETH" } ∧
      (processTx w f A i j tx).2 =
        match w.Post i j data with
        | .error _ => Flow.stop
        | .ok resp => if resp.StatusCode = 200 then Flow.next else Flow.stop) := by
  have hm : isMatch w A tx = true := by simp [isMatch, hs, hA]
  have h1 := processTx_of_match w f A i j tx R hm hto
  refine ⟨?_, ?_, ?_⟩
  · rw [h1.1]
    simp [notifyOf, hto, hs, pushMessage, pushTitle, pushUrl]
  · intro apiKey userKey message title url
    obtain ⟨data, hd, hu⟩ := jsonUnmarshal_jsonMarshal
      { Token := apiKey, User := userKey, Message := message, Url := url, Title := title }
    refine ⟨data, hd, hu, fun post => ?_⟩
    unfold sendPushNotification requestBody
    rw [hd]
  · intro data hd
    obtain ⟨data2, hd2, hu⟩ := jsonUnmarshal_jsonMarshal
      { Token := f.api_key, User := f.user_key,
        Message := w.AddressHex S ++ " -> " ++ w.AddressHex R ++ " : "
          ++ (ethValue tx.Value).String ++ " ETH",
        Url := "https://etherscan.io/tx/" ++ tx.Hash.Hex,
        Title := (ethValue tx.Value).String ++ " ETH" }
    have hdd : data2 = data := by
      rw [hd] at hd2
      exact (Except.ok.inj hd2).symm
    subst hdd
    refine ⟨hu, ?_⟩
    rw [h1.2.2]
    have hp : sendPushNotification (w.Post i j) f.api_key f.user_key
          (w.AddressHex S ++ " -> " ++ w.AddressHex R ++ " : " ++ (ethValue tx.Value).String
            ++ " ETH")
          ((ethValue tx.Value).String ++ " ETH")
          ("https://etherscan.io/tx/" ++ tx.Hash.Hex) =
        match w.Post i j data2 with
        | .error err => some err
        | .ok resp =>
            if resp.StatusCode ≠ 200 then
              match resp.Body with
              | .error _ => some "failed to read response body"
              | .ok body => some ("failed to send push notification : " ++ body)
            else none := by
      unfold sendPushNotification requestBody
      rw [hd]
    have hdis : dispatch w f i j tx R =
        sendPushNotification (w.Post i j) f.api_key f.user_key
          (w.AddressHex S ++ " -> " ++ w.AddressHex R ++ " : " ++ (ethValue tx.Value).String
            ++ " ETH")
          ((ethValue tx.Value).String ++ " ETH")
          ("https://etherscan.io/tx/" ++ tx.Hash.Hex) := by
      simp only [dispatch, hs, pushMessage, pushTitle, pushUrl]
    rw [hdis, hp]
    cases hpost : w.Post i j data2 with
    | error err => simp
    | ok resp =>
        by_cases hst : resp.StatusCode = 200
        · simp [hst]
        · cases hb : resp.Body <;> simp [hst, hb]

set_option maxRecDepth 100000 in
/-- Witness of C4, the scenario of the specification: sender `0xABCD...`,
recipient `0x1234...`, value 1500000000000000000 wei. The provider answers 200
only to the POST of the payload that holds the five strings of the scenario:
the loop goes on when that is the payload it expects, and returns when it
expects another one. -/
theorem notification_arguments_witness :
    notifications (processTx (expectingWorld samplePayload) sampleFlags (BytesToAddress [171])
      0 0 (sampleTx 0 171 1)).1 =
      [Event.notify "k" "u" "0xABCD... -> 0x1234... : 1.5 ETH" "1.5 ETH"
        "https://etherscan.io/tx/0x01"] ∧
    jsonUnmarshal samplePayload.data = some
      { Token := "k", User := "u", Message := "0xABCD... -> 0x1234... : 1.5 ETH",
        Url := "https://etherscan.io/tx/0x01", Title := "1.5 ETH" } ∧
    (processTx (expectingWorld samplePayload) sampleFlags (BytesToAddress [171]) 0 0
      (sampleTx 0 171 1)).2 = Flow.next ∧
    (processTx (expectingWorld "") sampleFlags (BytesToAddress [171]) 0 0
      (sampleTx 0 171 1)).2 = Flow.stop :=
  ⟨(notification_arguments (expectingWorld samplePayload) sampleFlags (BytesToAddress [171]) 0 0
      (sampleTx 0 171 1) (BytesToAddress [171]) (BytesToAddress [18]) (by decide) rfl rfl).1.trans
      (by decide),
   ((notification_arguments (expectingWorld samplePayload) sampleFlags (BytesToAddress [171]) 0 0
      (sampleTx 0 171 1) (BytesToAddress [171]) (BytesToAddress [18]) (by decide) rfl rfl).2.2
      samplePayload.data (jsonMarshal_of_toOption _ _ (by decide))).1.trans (by decide),
   ((notification_arguments (expectingWorld samplePayload) sampleFlags (BytesToAddress [171]) 0 0
      (sampleTx 0 171 1) (BytesToAddress [171]) (BytesToAddress [18]) (by decide) rfl rfl).2.2
      samplePayload.data (jsonMarshal_of_toOption _ _ (by decide))).2.trans (by decide),
   ((notification_arguments (expectingWorld "") sampleFlags (BytesToAddress [171]) 0 0
      (sampleTx 0 171 1) (BytesToAddress [171]) (BytesToAddress [18]) (by decide) rfl rfl).2.2
      samplePayload.data (jsonMarshal_of_toOption _ _ (by decide))).2.trans (by decide)⟩

/-! ## The rendered value (C3): bit length -/

/-- The bit count brackets its argument between two powers of two. -/
theorem bitLenAux_spec : ∀ fuel n : Nat, n ≤ fuel →
    n < 2 ^ bitLenAux fuel n ∧ (0 < n → 0 < bitLenAux fuel n ∧ 2 ^ (bitLenAux fuel n - 1) ≤ n) := by
  intro fuel
  induction fuel with
  | zero =>
      intro n hn
      have : n = 0 := by omega
      subst this
      simp [bitLenAux]
  | succ fuel ih =>
      intro n hn
      by_cases h0 : n = 0
      · subst h0
        simp [bitLenAux]
      · have hhalf : n / 2 ≤ fuel := by omega
        obtain ⟨h1, h2⟩ := ih (n / 2) hhalf
        simp only [bitLenAux, if_neg h0]
        refine ⟨?_, fun _ => ⟨by omega, ?_⟩⟩
        · rw [pow_succ]
          omega
        · simp only [Nat.add_sub_cancel]
          by_cases hh : n / 2 = 0
          · have : bitLenAux fuel (n / 2) = 0 := by
              rw [hh]
              cases fuel <;> simp [bitLenAux]
            rw [this]
            simp
            omega
          · obtain ⟨h3, h4⟩ := h2 (by omega)
            have : 2 ^ bitLenAux fuel (n / 2) = 2 ^ (bitLenAux fuel (n / 2) - 1) * 2 := by
              rw [← pow_succ]
              congr 1
              omega
            rw [this]
            omega

/-- A number is below two to its bit length. -/
theorem lt_two_pow_bitLen (n : Nat) : n < 2 ^ bitLen n :=
  (bitLenAux_spec n n le_rfl).1

/-- A positive number is at least two to its bit length less one. -/
theorem two_pow_bitLen_le (n : Nat) (h : 0 < n) : 2 ^ (bitLen n - 1) ≤ n :=
  ((bitLenAux_spec n n le_rfl).2 h).2

/-- A positive number has a positive bit length. -/
theorem bitLen_pos (n : Nat) (h : 0 < n) : 0 < bitLen n :=
  ((bitLenAux_spec n n le_rfl).2 h).1

/-! ## The rounded quotient -/

/-- Splitting off the rounding bit: `Q = m0 * 2^k + rbit * 2^(k-1) + low`. -/
theorem split_round_bit (Q k : Nat) (hk : 1 ≤ k) :
    Q = Q / 2 ^ k * (2 * 2 ^ (k - 1)) + (Q / 2 ^ (k - 1)) % 2 * 2 ^ (k - 1) + Q % 2 ^ (k - 1)
    ∧ (Q / 2 ^ (k - 1)) % 2 < 2 ∧ Q % 2 ^ (k - 1) < 2 ^ (k - 1) := by
  have hpow : 2 ^ k = 2 ^ (k - 1) * 2 := by
    rw [← pow_succ]
    congr 1
    omega
  have hpos : 0 < 2 ^ (k - 1) := by positivity
  have h1 : Q / 2 ^ k = Q / 2 ^ (k - 1) / 2 := by
    rw [hpow, Nat.div_div_eq_div_mul]
  have h2 := Nat.div_add_mod Q (2 ^ (k - 1))
  have h3 := Nat.div_add_mod (Q / 2 ^ (k - 1)) 2
  refine ⟨?_, Nat.mod_lt _ (by norm_num), Nat.mod_lt _ hpos⟩
  rw [h1]
  set y := Q / 2 ^ (k - 1) with hy
  set h := 2 ^ (k - 1) with hh
  have : y / 2 * (2 * h) + y % 2 * h = h * y := by
    calc y / 2 * (2 * h) + y % 2 * h = h * (2 * (y / 2) + y % 2) := by ring
      _ = h * y := by rw [h3]
  omega

/-- The quotient `a / b` rounded to `p` bits is `m * 2 ^ (-j)` with a full
mantissa and an error of at most half a unit in the last place:
`|m * b - a * 2 ^ j| <= b / 2`; for the operands of this program `j >= 18`. -/
theorem roundQuo_spec (a b p : Nat) (ha : 0 < a) (hb : 0 < b) (hp : 1 ≤ p)
    (hap : bitLen a ≤ p) (hbl : 20 ≤ bitLen b) :
    ∃ j : Nat, 18 ≤ j ∧ (roundQuo a b p).2 = -(j : Int) ∧ 2 ^ (p - 1) ≤ (roundQuo a b p).1 ∧
      2 * ((roundQuo a b p).1 * b) ≤ 2 * (a * 2 ^ j) + b ∧
      2 * (a * 2 ^ j) ≤ 2 * ((roundQuo a b p).1 * b) + b := by
  -- the quantities of the definition
  obtain ⟨s, hs⟩ : ∃ s, s = p + 2 + bitLen b := ⟨_, rfl⟩
  obtain ⟨Q, hQ⟩ : ∃ Q, Q = a * 2 ^ s / b := ⟨_, rfl⟩
  obtain ⟨R, hR⟩ : ∃ R, R = a * 2 ^ s % b := ⟨_, rfl⟩
  obtain ⟨k, hk⟩ : ∃ k, k = bitLen Q - p := ⟨_, rfl⟩
  have hX : a * 2 ^ s = b * Q + R := by rw [hQ, hR]; exact (Nat.div_add_mod _ _).symm
  have hRlt : R < b := by rw [hR]; exact Nat.mod_lt _ hb
  -- size of Q
  have hblt : b < 2 ^ bitLen b := lt_two_pow_bitLen b
  have hble : 2 ^ (bitLen b - 1) ≤ b := two_pow_bitLen_le b hb
  have halt : a < 2 ^ bitLen a := lt_two_pow_bitLen a
  have hQlow : 2 ^ (p + 2) ≤ Q := by
    rw [hQ, Nat.le_div_iff_mul_le hb]
    calc 2 ^ (p + 2) * b ≤ 2 ^ (p + 2) * 2 ^ bitLen b := Nat.mul_le_mul_left _ hblt.le
      _ = 2 ^ s := by rw [hs, ← pow_add]
      _ ≤ a * 2 ^ s := Nat.le_mul_of_pos_left _ ha
  have hQpos : 0 < Q := lt_of_lt_of_le (by positivity) hQlow
  have hL1 : 2 ^ (bitLen Q - 1) ≤ Q := two_pow_bitLen_le Q hQpos
  have hL2 : Q < 2 ^ bitLen Q := lt_two_pow_bitLen Q
  have hLp : p + 2 < bitLen Q := by
    have := lt_of_le_of_lt hQlow hL2
    exact (Nat.pow_lt_pow_iff_right (by norm_num)).mp this
  have hk3 : 3 ≤ k := by omega
  have hLk : bitLen Q = p + k := by omega
  -- upper bound on the size of Q, hence on k
  have hQup : Q < 2 ^ (bitLen a + s - bitLen b + 1) := by
    have h1 : Q * b ≤ a * 2 ^ s := by rw [hQ]; exact Nat.div_mul_le_self _ _
    have h2 : Q * 2 ^ (bitLen b - 1) ≤ Q * b := Nat.mul_le_mul_left _ hble
    have h3 : a * 2 ^ s < 2 ^ bitLen a * 2 ^ s := Nat.mul_lt_mul_of_pos_right halt (by positivity)
    have h4 : 2 ^ bitLen a * 2 ^ s = 2 ^ (bitLen a + s - bitLen b + 1) * 2 ^ (bitLen b - 1) := by
      rw [← pow_add, ← pow_add]
      congr 1
      omega
    have h5 : Q * 2 ^ (bitLen b - 1) < 2 ^ (bitLen a + s - bitLen b + 1) * 2 ^ (bitLen b - 1) := by
      omega
    exact Nat.lt_of_mul_lt_mul_right h5
  have hLup : bitLen Q ≤ bitLen a + s - bitLen b + 1 := by
    have := lt_of_le_of_lt hL1 hQup
    have := (Nat.pow_lt_pow_iff_right (by norm_num)).mp this
    omega
  have hks : k + 19 ≤ s := by omega
  -- the mantissa before rounding
  obtain ⟨hsplit, hrb, hlow⟩ := split_round_bit Q k (by omega)
  obtain ⟨m0, hm0⟩ : ∃ m0, m0 = Q / 2 ^ k := ⟨_, rfl⟩
  obtain ⟨rbit, hrbit⟩ : ∃ r, r = (Q / 2 ^ (k - 1)) % 2 := ⟨_, rfl⟩
  obtain ⟨low, hlowd⟩ : ∃ l, l = Q % 2 ^ (k - 1) := ⟨_, rfl⟩
  obtain ⟨h, hh⟩ : ∃ h, h = 2 ^ (k - 1) := ⟨_, rfl⟩
  rw [← hm0, ← hrbit, ← hlowd, ← hh] at hsplit
  rw [← hrbit] at hrb
  rw [← hlowd, ← hh] at hlow
  have hhpos : 0 < h := by rw [hh]; positivity
  have h2k : 2 ^ k = 2 * h := by
    rw [hh, ← pow_succ']
    congr 1
    omega
  have hm0lo : 2 ^ (p - 1) ≤ m0 := by
    rw [hm0, Nat.le_div_iff_mul_le (by positivity)]
    calc 2 ^ (p - 1) * 2 ^ k = 2 ^ (bitLen Q - 1) := by
          rw [← pow_add]
          congr 1
          omega
      _ ≤ Q := hL1
  have hm0hi : m0 < 2 ^ p := by
    rw [hm0, Nat.div_lt_iff_lt_mul (by positivity), ← pow_add, ← hLk]
    exact hL2
  -- the rounded mantissa
  obtain ⟨m1, hm1⟩ : ∃ m1, m1 = (if rbit = 1 ∧
      ((decide (low ≠ 0) || decide (R ≠ 0)) = true ∨ m0 % 2 = 1) then m0 + 1 else m0) := ⟨_, rfl⟩
  have hval : roundQuo a b p =
      if m1 = 2 ^ p then (2 ^ (p - 1), (k : Int) - (s : Int) + 1) else (m1, (k : Int) - (s : Int)) := by
    simp only [roundQuo]
    rw [← hs, ← hQ, ← hR, ← hk, ← hm0]
    rw [hm1, hrbit, hlowd]
  -- the exact numerator in units of `U = 2 ^ (k - 1) * b`
  obtain ⟨U, hU⟩ : ∃ U, U = h * b := ⟨_, rfl⟩
  obtain ⟨t, ht⟩ : ∃ t, t = low * b + R := ⟨_, rfl⟩
  obtain ⟨m0U, hm0U⟩ : ∃ z, z = m0 * U := ⟨_, rfl⟩
  have htU : t < U := by
    have : (low + 1) * b ≤ h * b := Nat.mul_le_mul_right _ hlow
    rw [ht, hU]
    linarith
  have hXU : a * 2 ^ s = 2 * m0U + rbit * U + t := by
    rw [hX, hsplit, hm0U, hU, ht]
    ring
  have ht0 : t = 0 → low = 0 ∧ R = 0 := by
    intro h0
    rw [ht] at h0
    have hR0 : R = 0 := by omega
    have : low * b = 0 := by omega
    rcases Nat.mul_eq_zero.mp this with h1 | h1
    · exact ⟨h1, hR0⟩
    · omega
  have hm1U : m1 = m0 ∧ (rbit = 0 ∨ (rbit = 1 ∧ t = 0)) ∨ m1 = m0 + 1 ∧ rbit = 1 := by
    by_cases hc : rbit = 1 ∧ ((decide (low ≠ 0) || decide (R ≠ 0)) = true ∨ m0 % 2 = 1)
    · right
      rw [hm1, if_pos hc]
      exact ⟨rfl, hc.1⟩
    · left
      rw [hm1, if_neg hc]
      refine ⟨rfl, ?_⟩
      by_cases hr1 : rbit = 1
      · right
        refine ⟨hr1, ?_⟩
        have hnc : ¬ ((decide (low ≠ 0) || decide (R ≠ 0)) = true) := fun hx => hc ⟨hr1, Or.inl hx⟩
        simp only [Bool.or_eq_true, decide_eq_true_eq, not_or, not_not] at hnc
        rw [ht, hnc.1, hnc.2]
        simp
      · left
        omega
  -- the error bound on the rounded mantissa, in units of U
  obtain ⟨m1U, hm1U2⟩ : ∃ z, z = m1 * U := ⟨_, rfl⟩
  have hbound : 2 * m1U ≤ a * 2 ^ s + U ∧ a * 2 ^ s ≤ 2 * m1U + U := by
    rcases hm1U with ⟨he, hr⟩ | ⟨he, hr⟩
    · have : m1U = m0U := by rw [hm1U2, hm0U, he]
      rcases hr with hr | ⟨hr, ht0⟩
      · rw [hr] at hXU
        omega
      · rw [hr] at hXU
        omega
    · have : m1U = m0U + U := by rw [hm1U2, hm0U, he]; ring
      rw [hr] at hXU
      omega
  -- back to `a * 2 ^ (s - k)`
  obtain ⟨j0, hj0⟩ : ∃ j0, s = k + j0 := ⟨s - k, by omega⟩
  have hj019 : 19 ≤ j0 := by omega
  have hs2 : a * 2 ^ s = h * (2 * (a * 2 ^ j0)) := by
    rw [hj0, pow_add, h2k]
    ring
  have hm1b : 2 * m1U = h * (2 * (m1 * b)) := by
    rw [hm1U2, hU]
    ring
  have hb1 : 2 * (m1 * b) ≤ 2 * (a * 2 ^ j0) + b := by
    have : h * (2 * (m1 * b)) ≤ h * (2 * (a * 2 ^ j0) + b) := by
      rw [Nat.mul_add, ← hs2, ← hm1b, ← hU]
      exact hbound.1
    exact Nat.le_of_mul_le_mul_left this hhpos
  have hb2 : 2 * (a * 2 ^ j0) ≤ 2 * (m1 * b) + b := by
    have : h * (2 * (a * 2 ^ j0)) ≤ h * (2 * (m1 * b) + b) := by
      rw [Nat.mul_add, ← hs2, ← hm1b, ← hU]
      exact hbound.2
    exact Nat.le_of_mul_le_mul_left this hhpos
  have hm1lo : 2 ^ (p - 1) ≤ m1 := by
    rcases hm1U with ⟨he, _⟩ | ⟨he, _⟩ <;> omega
  by_cases hcarry : m1 = 2 ^ p
  · refine ⟨j0 - 1, by omega, ?_, ?_, ?_, ?_⟩
    · rw [hval, if_pos hcarry]
      simp only
      omega
    · rw [hval, if_pos hcarry]
    · rw [hval, if_pos hcarry]
      simp only
      have hpp : 2 ^ p = 2 * 2 ^ (p - 1) := by
        rw [← pow_succ']
        congr 1
        omega
      have hjj : 2 ^ j0 = 2 * 2 ^ (j0 - 1) := by
        rw [← pow_succ']
        congr 1
        omega
      rw [hcarry, hpp, hjj] at hb1
      have e1 : 2 * (2 * 2 ^ (p - 1) * b) = 4 * (2 ^ (p - 1) * b) := by ring
      have e2 : 2 * (a * (2 * 2 ^ (j0 - 1))) = 4 * (a * 2 ^ (j0 - 1)) := by ring
      omega
    · rw [hval, if_pos hcarry]
      simp only
      have hpp : 2 ^ p = 2 * 2 ^ (p - 1) := by
        rw [← pow_succ']
        congr 1
        omega
      have hjj : 2 ^ j0 = 2 * 2 ^ (j0 - 1) := by
        rw [← pow_succ']
        congr 1
        omega
      rw [hcarry, hpp, hjj] at hb2
      have e1 : 2 * (2 * 2 ^ (p - 1) * b) = 4 * (2 ^ (p - 1) * b) := by ring
      have e2 : 2 * (a * (2 * 2 ^ (j0 - 1))) = 4 * (a * 2 ^ (j0 - 1)) := by ring
      omega
  · refine ⟨j0, by omega, ?_, ?_, ?_, ?_⟩
    · rw [hval, if_neg hcarry]
      simp only
      omega
    · rw [hval, if_neg hcarry]
      exact hm1lo
    · rw [hval, if_neg hcarry]
      exact hb1
    · rw [hval, if_neg hcarry]
      exact hb2

/-! ## Rounding a decimal whose digits are known -/

/-- Zeros appended to digits that do not end in zero are trimmed away. -/
theorem trimZeros_append_zeros (P : List Nat) (c : Nat)
    (hP : P.reverse.dropWhile (fun d => d == 0) = P.reverse) :
    trimZeros (P ++ List.replicate c 0) = P := by
  unfold trimZeros
  rw [List.reverse_append, List.reverse_replicate,
    List.dropWhile_append_of_pos (by
      intro a ha
      rw [List.eq_of_mem_replicate ha]
      rfl), hP, List.reverse_reverse]

/-- Rounding digits `P`, then zeros up to the eleventh place and beyond, then more: the digits `P` are kept. -/
theorem round_down_of_shape (P E : List Nat) (z : Nat) (e : Int)
    (hP : P.reverse.dropWhile (fun d => d == 0) = P.reverse) (hP0 : P ≠ [])
    (hlen : P.length ≤ 10) (hz : 11 ≤ P.length + z) (hE : E ≠ []) :
    Decimal.round { mant := P ++ List.replicate z 0 ++ E, exp := e } 10
      = { mant := P, exp := e } := by
  have hElen : 0 < E.length := List.length_pos.mpr hE
  have hget : (P ++ List.replicate z 0 ++ E).getD 10 0 = 0 := by
    rw [List.append_assoc, List.getD_append_right _ _ _ _ hlen,
      List.getD_append _ _ _ _ (by rw [List.length_replicate]; omega)]
    rw [List.getD_eq_getElem _ _ (by rw [List.length_replicate]; omega)]
    simp
  have htake : (P ++ List.replicate z 0 ++ E).take 10 = P ++ List.replicate (10 - P.length) 0 := by
    rw [List.append_assoc, List.take_append_eq_append_take, List.take_of_length_le hlen,
      List.take_append_eq_append_take, List.take_replicate, List.length_replicate]
    have h1 : min (10 - P.length) z = 10 - P.length := by omega
    have h2 : 10 - P.length - z = 0 := by omega
    rw [h1, h2]
    simp
  have hnle : ¬ (P ++ List.replicate z 0 ++ E).length ≤ 10 := by
    simp only [List.length_append, List.length_replicate]
    omega
  simp only [Decimal.round, if_neg hnle, shouldRoundUp, hget]
  simp only [show ¬ ((0 : Nat) = 5 ∧ 10 + 1 = (P ++ List.replicate z 0 ++ E).length) by omega,
    if_false, show decide (5 ≤ 0) = false by decide, Bool.false_eq_true]
  simp only [Decimal.roundDown, htake, trimZeros_append_zeros P _ hP, if_neg hP0]

/-- Rounding digits ending in `d < 9`, then nines up to the eleventh place and beyond: the last digit kept is raised by one. -/
theorem round_up_of_shape (r E : List Nat) (d c : Nat) (e : Int)
    (hd : d < 9) (hlen : r.length + 1 ≤ 10) (hc : 11 ≤ r.length + 1 + c) :
    Decimal.round { mant := (r.reverse ++ [d]) ++ List.replicate c 9 ++ E, exp := e } 10
      = { mant := r.reverse ++ [d + 1], exp := e } := by
  have hPlen : (r.reverse ++ [d]).length = r.length + 1 := by simp
  have hget : ((r.reverse ++ [d]) ++ List.replicate c 9 ++ E).getD 10 0 = 9 := by
    rw [List.append_assoc, List.getD_append_right _ _ _ _ (by rw [hPlen]; exact hlen),
      List.getD_append _ _ _ _ (by rw [List.length_replicate, hPlen]; omega)]
    rw [List.getD_eq_getElem _ _ (by rw [List.length_replicate, hPlen]; omega)]
    simp
  have htake : ((r.reverse ++ [d]) ++ List.replicate c 9 ++ E).take 10
      = (r.reverse ++ [d]) ++ List.replicate (10 - (r.length + 1)) 9 := by
    rw [List.append_assoc, List.take_append_eq_append_take,
      List.take_of_length_le (by rw [hPlen]; exact hlen),
      List.take_append_eq_append_take, List.take_replicate, List.length_replicate, hPlen]
    have h1 : min (10 - (r.length + 1)) c = 10 - (r.length + 1) := by omega
    have h2 : 10 - (r.length + 1) - c = 0 := by omega
    rw [h1, h2]
    simp
  have hnle : ¬ ((r.reverse ++ [d]) ++ List.replicate c 9 ++ E).length ≤ 10 := by
    simp only [List.length_append, List.length_replicate, List.length_reverse, List.length_cons,
      List.length_nil]
    omega
  have hdrop : (((r.reverse ++ [d]) ++ List.replicate (10 - (r.length + 1)) 9).reverse).dropWhile
      (fun d => decide (9 ≤ d)) = d :: r := by
    rw [List.reverse_append, List.reverse_replicate,
      List.dropWhile_append_of_pos (by
        intro a ha
        rw [List.eq_of_mem_replicate ha]
        rfl)]
    simp only [List.reverse_append, List.reverse_cons, List.reverse_nil, List.nil_append,
      List.reverse_reverse, List.singleton_append]
    rw [List.dropWhile_cons_of_neg (by simp; omega)]
  simp only [Decimal.round, if_neg hnle, shouldRoundUp, hget]
  simp only [show ¬ ((9 : Nat) = 5 ∧ 10 + 1 = ((r.reverse ++ [d]) ++ List.replicate c 9 ++ E).length)
      by omega, if_false, show decide (5 ≤ 9) = true by decide, if_true]
  simp only [Decimal.roundUp, htake, hdrop]

/-- Rounding eleven or more nines: the digit one, one decimal place higher. -/
theorem round_up_of_nines (E : List Nat) (c : Nat) (e : Int) (hc : 11 ≤ c) :
    Decimal.round { mant := List.replicate c 9 ++ E, exp := e } 10
      = { mant := [1], exp := e + 1 } := by
  have hget : (List.replicate c 9 ++ E).getD 10 0 = 9 := by
    rw [List.getD_append _ _ _ _ (by rw [List.length_replicate]; omega)]
    rw [List.getD_eq_getElem _ _ (by rw [List.length_replicate]; omega)]
    simp
  have htake : (List.replicate c 9 ++ E).take 10 = List.replicate 10 9 := by
    rw [List.take_append_eq_append_take, List.take_replicate, List.length_replicate]
    have h1 : min 10 c = 10 := by omega
    have h2 : 10 - c = 0 := by omega
    rw [h1, h2]
    simp
  have hnle : ¬ (List.replicate c 9 ++ E).length ≤ 10 := by
    simp only [List.length_append, List.length_replicate]
    omega
  simp only [Decimal.round, if_neg hnle, shouldRoundUp, hget]
  simp only [show ¬ ((9 : Nat) = 5 ∧ 10 + 1 = (List.replicate c 9 ++ E).length) by omega,
    if_false, show decide (5 ≤ 9) = true by decide, if_true]
  simp only [Decimal.roundUp, htake]
  rfl

/-! ## The digits of a number near a short decimal -/

/-- The digit loop computes the digits of Mathlib, most significant first. -/
theorem digitsAux_eq : ∀ fuel n : Nat, ∀ acc : List Nat, n < fuel → 0 < n →
    digitsAux fuel n acc = (Nat.digits 10 n).reverse ++ acc := by
  intro fuel
  induction fuel with
  | zero => intro n acc h; omega
  | succ fuel ih =>
      intro n acc hlt hpos
      by_cases h10 : n < 10
      · simp [digitsAux, h10, Nat.digits_of_lt 10 n (by omega) h10]
      · rw [digitsAux, if_neg h10, ih (n / 10) _ (by omega) (by omega),
          Nat.digits_def' (by norm_num) hpos]
        simp

/-- The digits of a positive number are those of Mathlib, most significant first. -/
theorem digits_eq (n : Nat) (h : 0 < n) : digits n = (Nat.digits 10 n).reverse := by
  rw [digits, digitsAux_eq (n + 1) n [] (by omega) h, List.append_nil]

/-- Trimming trailing zeros is dropping leading zeros of the reversed list. -/
theorem trimZeros_reverse (l : List Nat) :
    trimZeros l.reverse = (l.dropWhile (fun d => d == 0)).reverse := by
  simp [trimZeros]

/-- A number that is no multiple of ten has no zero to drop at its low end. -/
theorem dropWhile_zero_digits (n : Nat) (hmod : n % 10 ≠ 0) :
    (Nat.digits 10 n).dropWhile (fun d => d == 0) = Nat.digits 10 n := by
  have hpos : 0 < n := by
    rcases Nat.eq_zero_or_pos n with h | h
    · rw [h] at hmod; simp at hmod
    · exact h
  rw [Nat.digits_def' (by norm_num) hpos]
  rw [List.dropWhile_cons_of_neg (by simpa using hmod)]

/-- A positive number has a nonzero digit. -/
theorem dropWhile_zero_digits_ne_nil (n : Nat) (hpos : 0 < n) :
    (Nat.digits 10 n).dropWhile (fun d => d == 0) ≠ [] := by
  intro h
  rw [List.dropWhile_eq_nil_iff] at h
  have hne : Nat.digits 10 n ≠ [] := Nat.digits_ne_nil_iff_ne_zero.mpr (by omega)
  have hlast := Nat.getLast_digit_ne_zero 10 (m := n) (by omega)
  have := h _ (List.getLast_mem hne)
  simp at this
  exact hlast this

/-- The digits of `10 ^ c - 1` are `c` nines. -/
theorem digits_nines (c : Nat) : Nat.digits 10 (10 ^ c - 1) = List.replicate c 9 := by
  induction c with
  | zero => simp
  | succ c ih =>
      have hpos : 0 < 10 ^ c := by positivity
      have h : 10 ^ (c + 1) - 1 = 9 + 10 * (10 ^ c - 1) := by
        rw [pow_succ]
        omega
      rw [h, Nat.digits_add 10 (by norm_num) 9 _ (by norm_num) (Or.inl (by norm_num)), ih,
        List.replicate_succ]

/-- A number below `10 ^ k` has at most `k` digits. -/
theorem digits_length_le (m k : Nat) (h : m < 10 ^ k) : (Nat.digits 10 m).length ≤ k := by
  rcases Nat.eq_zero_or_pos m with h0 | h0
  · rw [h0]; simp
  · have h1 := Nat.base_pow_length_digits_le 10 m (by norm_num) (by omega)
    have h2 : 10 ^ (Nat.digits 10 m).length < 10 ^ (k + 1) := by
      rw [pow_succ]
      omega
    have := (Nat.pow_lt_pow_iff_right (by norm_num)).mp h2
    omega

/-- The decimal of `N = 10 ^ T * n`, a number with few significant digits. -/
theorem init_shape_eq (n T : Nat) (hn : 0 < n) (hmod : n % 10 ≠ 0) :
    trimZeros (digits (10 ^ T * n)) = (Nat.digits 10 n).reverse ∧
    (digits (10 ^ T * n)).length = (Nat.digits 10 n).length + T := by
  have hpos : 0 < 10 ^ T * n := by positivity
  rw [digits_eq _ hpos, Nat.digits_base_pow_mul (by norm_num) hn, trimZeros_reverse]
  constructor
  · rw [List.dropWhile_append_of_pos (by
      intro a ha
      rw [List.eq_of_mem_replicate ha]
      rfl), dropWhile_zero_digits n hmod]
  · simp

/-- The decimal of a number slightly above `10 ^ T * n`. -/
theorem init_shape_above (n T d W : Nat) (hn : 0 < n) (hd : 0 < d) (hdW : d < 10 ^ W)
    (hWT : W ≤ T) :
    ∃ E : List Nat, E ≠ [] ∧
      trimZeros (digits (d + 10 ^ T * n)) =
        (Nat.digits 10 n).reverse ++ List.replicate (T - (Nat.digits 10 d).length) 0 ++ E ∧
      (digits (d + 10 ^ T * n)).length = (Nat.digits 10 n).length + T ∧
      T - W ≤ T - (Nat.digits 10 d).length := by
  have hlen : (Nat.digits 10 d).length ≤ W := digits_length_le d W hdW
  have hpos : 0 < d + 10 ^ T * n := by positivity
  have hshape : Nat.digits 10 (d + 10 ^ T * n) =
      Nat.digits 10 d ++ List.replicate (T - (Nat.digits 10 d).length) 0 ++ Nat.digits 10 n := by
    have he : (Nat.digits 10 d).length + (T - (Nat.digits 10 d).length) = T := by omega
    rw [Nat.digits_append_zeroes_append_digits (by norm_num) hn, he]
  refine ⟨((Nat.digits 10 d).dropWhile (fun x => x == 0)).reverse, ?_, ?_, ?_, by omega⟩
  · intro h
    exact dropWhile_zero_digits_ne_nil d hd (List.reverse_eq_nil_iff.mp h)
  · rw [digits_eq _ hpos, trimZeros_reverse, hshape, List.append_assoc, List.dropWhile_append]
    have hne := dropWhile_zero_digits_ne_nil d hd
    have : (List.dropWhile (fun x => x == 0) (Nat.digits 10 d)).isEmpty = false := by
      cases h : List.dropWhile (fun x => x == 0) (Nat.digits 10 d) with
      | nil => exact absurd h hne
      | cons _ _ => rfl
    rw [this]
    simp
  · rw [digits_eq _ hpos, hshape]
    simp
    omega

/-- The digits of a number `r + 10 ^ W * A` with `0 < r < 10 ^ W` and `0 < A`, trimmed:
those of `A`, then something. -/
theorem init_shape_split (A r W : Nat) (hA : 0 < A) (hr : 0 < r) (hrW : r < 10 ^ W) :
    ∃ E : List Nat,
      trimZeros (digits (r + 10 ^ W * A)) = (Nat.digits 10 A).reverse ++ E ∧
      (digits (r + 10 ^ W * A)).length = (Nat.digits 10 A).length + W := by
  have hlen : (Nat.digits 10 r).length ≤ W := digits_length_le r W hrW
  have hpos : 0 < r + 10 ^ W * A := by positivity
  have hshape : Nat.digits 10 (r + 10 ^ W * A) =
      Nat.digits 10 r ++ List.replicate (W - (Nat.digits 10 r).length) 0 ++ Nat.digits 10 A := by
    have he : (Nat.digits 10 r).length + (W - (Nat.digits 10 r).length) = W := by omega
    rw [Nat.digits_append_zeroes_append_digits (by norm_num) hA, he]
  refine ⟨List.replicate (W - (Nat.digits 10 r).length) 0 ++
    ((Nat.digits 10 r).dropWhile (fun x => x == 0)).reverse, ?_, ?_⟩
  · rw [digits_eq _ hpos, trimZeros_reverse, hshape, List.append_assoc, List.dropWhile_append]
    have hne := dropWhile_zero_digits_ne_nil r hr
    have : (List.dropWhile (fun x => x == 0) (Nat.digits 10 r)).isEmpty = false := by
      cases h : List.dropWhile (fun x => x == 0) (Nat.digits 10 r) with
      | nil => exact absurd h hne
      | cons _ _ => rfl
    rw [this]
    simp
  · rw [digits_eq _ hpos, hshape]
    simp
    omega

/-- The digits of `n * 10 ^ c - 1` for `n > 1` not a multiple of ten: those of
`n` with the last one lowered, then nines. -/
theorem digits_pred_shift (n c : Nat) (hn : 1 < n) (hmod : n % 10 ≠ 0) :
    Nat.digits 10 (n * 10 ^ c - 1) =
      List.replicate c 9 ++ (n % 10 - 1) :: Nat.digits 10 (n / 10) := by
  have hpos : 0 < 10 ^ c := by positivity
  have h1 : n * 10 ^ c - 1 = (10 ^ c - 1) + 10 ^ c * (n - 1) := by
    have : n * 10 ^ c = 10 ^ c * (n - 1) + 10 ^ c := by
      have hn1 : n = (n - 1) + 1 := by omega
      conv_lhs => rw [hn1]
      ring
    omega
  have h2 : Nat.digits 10 (n - 1) = (n % 10 - 1) :: Nat.digits 10 (n / 10) := by
    rw [Nat.digits_def' (by norm_num) (by omega : 0 < n - 1)]
    congr 1
    · omega
    · congr 1
      omega
  have h3 := Nat.digits_append_digits (b := 10) (m := n - 1) (n := 10 ^ c - 1) (by norm_num)
  rw [digits_nines, List.length_replicate] at h3
  rw [h1, ← h3, h2]

/-- Rounding to ten digits the exact decimal of a number `N` within `N / 2 ^ 64`
of `10 ^ T * n`, where `n` has at most ten digits and is no multiple of ten,
gives the digits of `n`. -/
theorem round_init_of_close (N n T : Nat) (j : Int) (hn : 0 < n) (hn10 : n < 10 ^ 10)
    (hmod : n % 10 ≠ 0)
    (hup : 2 ^ 64 * (N - 10 ^ T * n) ≤ N) (hdown : 2 ^ 64 * (10 ^ T * n - N) ≤ N) :
    Decimal.round { mant := trimZeros (digits N), exp := ((digits N).length : Int) - j } 10
      = { mant := (Nat.digits 10 n).reverse,
          exp := (((Nat.digits 10 n).length + T : Nat) : Int) - j } := by
  have hLn10 : (Nat.digits 10 n).length ≤ 10 := digits_length_le n 10 hn10
  have hdn : Nat.digits 10 n = n % 10 :: Nat.digits 10 (n / 10) :=
    Nat.digits_def' (by norm_num) hn
  have hLn1 : 1 ≤ (Nat.digits 10 n).length := by rw [hdn]; simp
  have hnlt : n < 10 ^ (Nat.digits 10 n).length := Nat.lt_base_pow_length_digits (by norm_num)
  have hVlt : 10 ^ T * n < 10 ^ (T + (Nat.digits 10 n).length) := by
    rw [pow_add]
    exact Nat.mul_lt_mul_of_pos_left hnlt (by positivity)
  have h264 : (2 : Nat) ^ 64 = 18446744073709551616 := by norm_num
  rw [h264] at hup hdown
  -- a nonzero distance forces many digits
  have hfar : ∀ d : Nat, 0 < d → 1000000000000000000 * d < 10 ^ (T + (Nat.digits 10 n).length) →
      19 ≤ T + (Nat.digits 10 n).length ∧ d < 10 ^ (T + (Nat.digits 10 n).length - 18) := by
    intro d hd hlt
    have h19 : 19 ≤ T + (Nat.digits 10 n).length := by
      by_contra hcon
      have hle : 10 ^ (T + (Nat.digits 10 n).length) ≤ 10 ^ 18 :=
        Nat.pow_le_pow_right (by norm_num) (by omega)
      have : (10 : Nat) ^ 18 = 1000000000000000000 := by norm_num
      omega
    refine ⟨h19, ?_⟩
    have hsplit : 10 ^ (T + (Nat.digits 10 n).length)
        = 1000000000000000000 * 10 ^ (T + (Nat.digits 10 n).length - 18) := by
      have : (1000000000000000000 : Nat) = 10 ^ 18 := by norm_num
      rw [this, ← pow_add]
      congr 1
      omega
    rw [hsplit] at hlt
    exact Nat.lt_of_mul_lt_mul_left hlt
  rcases Nat.lt_trichotomy N (10 ^ T * n) with hlt | heq | hgt
  · -- below: round up
    obtain ⟨d, hd⟩ : ∃ d, d = 10 ^ T * n - N := ⟨_, rfl⟩
    rw [← hd] at hdown
    have hdpos : 0 < d := by omega
    obtain ⟨h19, hdW⟩ := hfar d hdpos (by omega)
    obtain ⟨W, hW⟩ : ∃ W, W = T + (Nat.digits 10 n).length - 18 := ⟨_, rfl⟩
    obtain ⟨c, hc⟩ : ∃ c, c = 18 - (Nat.digits 10 n).length := ⟨_, rfl⟩
    rw [← hW] at hdW
    have hTW : T = W + c := by omega
    have hpc : 0 < 10 ^ c := by positivity
    have hpW : 0 < 10 ^ W := by positivity
    have hA1 : 1 ≤ n * 10 ^ c := Nat.mul_pos hn hpc
    have hV : 10 ^ T * n = 10 ^ W * (n * 10 ^ c - 1) + 10 ^ W := by
      have h1 : 10 ^ T * n = 10 ^ W * (n * 10 ^ c) := by rw [hTW, pow_add]; ring
      have h2 : n * 10 ^ c = (n * 10 ^ c - 1) + 1 := by omega
      rw [h1]
      conv_lhs => rw [h2]
      ring
    have hNeq : N = (10 ^ W - d) + 10 ^ W * (n * 10 ^ c - 1) := by omega
    by_cases hn1 : n = 1
    · have hdn1 : Nat.digits 10 n = [1] := by rw [hn1]; norm_num
      have hL1 : (Nat.digits 10 n).length = 1 := by rw [hdn1]; rfl
      have hc17 : c = 17 := by omega
      have hA9 : n * 10 ^ c - 1 = 10 ^ c - 1 := by rw [hn1, one_mul]
      have hA : 0 < n * 10 ^ c - 1 := by
        have : 10 ^ 1 ≤ 10 ^ c := Nat.pow_le_pow_right (by norm_num) (by omega)
        rw [hA9]
        omega
      obtain ⟨E, hE1, hE2⟩ := init_shape_split (n * 10 ^ c - 1) (10 ^ W - d) W hA (by omega)
        (by omega)
      rw [← hNeq, hA9, digits_nines] at hE1 hE2
      rw [List.reverse_replicate] at hE1
      rw [List.length_replicate] at hE2
      rw [hE1, hE2, round_up_of_nines E c _ (by omega), hdn1]
      simp only [List.reverse_cons, List.reverse_nil, List.nil_append,
        List.length_singleton, Decimal.mk.injEq, true_and]
      push_cast
      omega
    · have hn2 : 1 < n := by omega
      have hA : 0 < n * 10 ^ c - 1 := by
        have : 2 * 1 ≤ n * 10 ^ c := Nat.mul_le_mul hn2 hpc
        omega
      obtain ⟨E, hE1, hE2⟩ := init_shape_split (n * 10 ^ c - 1) (10 ^ W - d) W hA (by omega)
        (by omega)
      rw [← hNeq] at hE1 hE2
      have hLn : (Nat.digits 10 n).length = (Nat.digits 10 (n / 10)).length + 1 := by
        rw [hdn]; simp
      rw [hE1, hE2, digits_pred_shift n c hn2 hmod]
      simp only [List.reverse_append, List.reverse_cons, List.reverse_replicate,
        List.length_append, List.length_replicate, List.length_cons]
      rw [round_up_of_shape (Nat.digits 10 (n / 10)) E (n % 10 - 1) c _ (by omega) (by omega)
        (by omega)]
      have hd1 : n % 10 - 1 + 1 = n % 10 := by omega
      rw [hd1]
      simp only [Decimal.mk.injEq]
      constructor
      · conv_rhs => rw [hdn]
        simp
      · push_cast
        omega
  · -- exact: nothing to round
    rw [heq]
    obtain ⟨h1, h2⟩ := init_shape_eq n T hn hmod
    rw [h1, h2]
    simp only [Decimal.round, List.length_reverse, if_pos hLn10]
  · -- above: round down
    obtain ⟨d, hd⟩ : ∃ d, d = N - 10 ^ T * n := ⟨_, rfl⟩
    rw [← hd] at hup
    have hdpos : 0 < d := by omega
    obtain ⟨h19, hdW⟩ := hfar d hdpos (by omega)
    have hNeq : N = d + 10 ^ T * n := by omega
    obtain ⟨E, hE0, hE1, hE2, hE3⟩ := init_shape_above n T d
      (T + (Nat.digits 10 n).length - 18) hn hdpos hdW (by omega)
    rw [← hNeq] at hE1 hE2
    rw [hE1, hE2]
    rw [round_down_of_shape (Nat.digits 10 n).reverse E _ _
      (by rw [List.reverse_reverse]; exact dropWhile_zero_digits n hmod)
      (by rw [hdn]; simp)
      (by rw [List.length_reverse]; exact hLn10)
      (by rw [List.length_reverse]; omega) hE0]

/-! ## The rendered value of a transaction -/

/-- A positive number is a power of ten times a number that is no multiple of ten. -/
theorem exists_trailing_zeros : ∀ n0 : Nat, 0 < n0 →
    ∃ n z : Nat, n0 = 10 ^ z * n ∧ n % 10 ≠ 0 ∧ 0 < n ∧ n ≤ n0 := by
  intro n0
  induction n0 using Nat.strong_induction_on with
  | _ n0 ih =>
      intro hpos
      by_cases hmod : n0 % 10 = 0
      · obtain ⟨n, z, h1, h2, h3, h4⟩ := ih (n0 / 10) (by omega) (by omega)
        refine ⟨n, z + 1, ?_, h2, h3, by omega⟩
        have : n0 = 10 * (n0 / 10) := by omega
        rw [this, h1, pow_succ]
        ring
      · exact ⟨n0, 0, by simp, hmod, hpos, le_rfl⟩

/-- The constant `params.Ether` has 60 bits. -/
theorem bitLen_Ether : bitLen Ether = 60 := by
  decide

/-- The float `ethValue v` of a positive value: its exact decimal is that of an
integer `N = m * 5 ^ j` scaled by `10 ^ (-j)`, and `N` is within `N / 2 ^ 64` of
`v * 10 ^ (j - 18)`. -/
theorem ethValue_toDecimal (v : Nat) (hv : 0 < v) :
    ∃ N j : Nat, 18 ≤ j ∧
      (ethValue v).toDecimal =
        { mant := trimZeros (digits N), exp := ((digits N).length : Int) - (j : Int) } ∧
      2 ^ 64 * (N - v * 10 ^ (j - 18)) ≤ N ∧ 2 ^ 64 * (v * 10 ^ (j - 18) - N) ≤ N := by
  have hE0 : Ether ≠ 0 := by decide
  have hv0 : v ≠ 0 := by omega
  obtain ⟨p, hp⟩ : ∃ p, p = max (bitLen v) 64 := ⟨_, rfl⟩
  obtain ⟨j, hj18, he, hm, h1, h2⟩ := roundQuo_spec v Ether p hv (by decide) (by omega)
    (by omega) (by rw [bitLen_Ether]; norm_num)
  obtain ⟨m, hmdef⟩ : ∃ m, m = (roundQuo v Ether p).1 := ⟨_, rfl⟩
  rw [← hmdef] at hm h1 h2
  refine ⟨m * 5 ^ j, j, hj18, ?_, ?_⟩
  · have hval : ethValue v = BigFloat.finite p m (-(j : Int) + 0 - 0) := by
      simp only [ethValue, BigFloat.SetInt, if_neg hv0, if_neg hE0, BigFloat.Quo, BigFloat.prec,
        bitLen_Ether]
      rw [show max (max (bitLen v) 64) (max 60 64) = p by rw [hp]; omega, he, ← hmdef]
    rw [hval]
    simp only [BigFloat.toDecimal, Decimal.init, add_zero, sub_zero, neg_neg, Int.toNat_ofNat]
    rw [show (-(j : Int)).toNat = 0 by omega]
    simp
  · -- the error bound, moved from the binary to the decimal scale
    obtain ⟨F, hF⟩ : ∃ F, F = 5 ^ j := ⟨_, rfl⟩
    obtain ⟨V, hV⟩ : ∃ V, V = v * 10 ^ (j - 18) := ⟨_, rfl⟩
    obtain ⟨N, hN⟩ : ∃ N, N = m * 5 ^ j := ⟨_, rfl⟩
    rw [← hV, ← hN]
    have hFpos : 0 < F := by rw [hF]; positivity
    have hEth : Ether = 10 ^ 18 := by decide
    have hEV : Ether * V = v * 2 ^ j * F := by
      rw [hV, hF, hEth]
      have : (10 : Nat) ^ 18 * (v * 10 ^ (j - 18)) = v * 10 ^ (18 + (j - 18)) := by
        rw [pow_add]; ring
      rw [this, show 18 + (j - 18) = j by omega, show (10 : Nat) = 2 * 5 by norm_num, mul_pow]
      ring
    have hEN : Ether * N = m * Ether * F := by rw [hN, hF]; ring
    have hEpos : 0 < Ether := by decide
    have hA : 2 * N ≤ 2 * V + F := by
      have : Ether * (2 * N) ≤ Ether * (2 * V + F) := by
        have h3 := Nat.mul_le_mul_right F h1
        calc Ether * (2 * N) = 2 * (m * Ether) * F := by rw [mul_left_comm, hEN]; ring
          _ ≤ (2 * (v * 2 ^ j) + Ether) * F := h3
          _ = Ether * (2 * V + F) := by rw [mul_add, mul_left_comm Ether 2 V, hEV]; ring
      exact Nat.le_of_mul_le_mul_left this hEpos
    have hB : 2 * V ≤ 2 * N + F := by
      have : Ether * (2 * V) ≤ Ether * (2 * N + F) := by
        have h3 := Nat.mul_le_mul_right F h2
        calc Ether * (2 * V) = 2 * (v * 2 ^ j) * F := by rw [mul_left_comm, hEV]; ring
          _ ≤ (2 * (m * Ether) + Ether) * F := h3
          _ = Ether * (2 * N + F) := by rw [mul_add, mul_left_comm Ether 2 N, hEN]; ring
      exact Nat.le_of_mul_le_mul_left this hEpos
    have hNbig : 2 ^ 63 * F ≤ N := by
      rw [hN, ← hF]
      apply Nat.mul_le_mul_right
      calc 2 ^ 63 ≤ 2 ^ (p - 1) := Nat.pow_le_pow_right (by norm_num) (by omega)
        _ ≤ m := hm
    have h264 : (2 : Nat) ^ 64 = 18446744073709551616 := by norm_num
    have h263 : (2 : Nat) ^ 63 = 9223372036854775808 := by norm_num
    rw [h263] at hNbig
    rw [h264]
    constructor <;> omega

/-- Trimming does not lengthen a list. -/
theorem trimZeros_length_le (l : List Nat) : (trimZeros l).length ≤ l.length := by
  unfold trimZeros
  rw [List.length_reverse]
  calc (List.dropWhile (fun d => d == 0) l.reverse).length ≤ l.reverse.length :=
        (List.dropWhile_sublist _).length_le
    _ = l.length := List.length_reverse l

/-- Rounding to ten digits leaves at most ten digits. -/
theorem round_length_le (x : Decimal) : (x.round 10).mant.length ≤ 10 := by
  unfold Decimal.round
  split_ifs with h1 h2
  · exact h1
  · unfold Decimal.roundUp
    have hk : ((x.mant.take 10).reverse.dropWhile (fun d => decide (9 ≤ d))).length ≤ 10 := by
      calc ((x.mant.take 10).reverse.dropWhile (fun d => decide (9 ≤ d))).length
          ≤ (x.mant.take 10).reverse.length := (List.dropWhile_sublist _).length_le
        _ = (x.mant.take 10).length := List.length_reverse _
        _ ≤ 10 := List.length_take_le _ _
    cases hkept : (x.mant.take 10).reverse.dropWhile (fun d => decide (9 ≤ d)) with
    | nil => simp
    | cons d rest =>
        rw [hkept] at hk
        simp only [List.length_append, List.length_reverse, List.length_cons, List.length_nil]
        simpa using hk
  · unfold Decimal.roundDown
    calc (trimZeros (x.mant.take 10)).length ≤ (x.mant.take 10).length := trimZeros_length_le _
      _ ≤ 10 := List.length_take_le _ _

/-- The layout depends on a decimal only through its rounding to ten digits. -/
theorem fmtG_congr (d1 d2 : Decimal) (h : d1.round 10 = d2.round 10) :
    fmtG 10 d1 = fmtG 10 d2 := by
  simp only [fmtG, h]

/-- The value of digits given most significant first. -/
theorem digitsValue_reverse (l : List Nat) : digitsValue l.reverse = Nat.ofDigits 10 l := by
  induction l with
  | nil => rfl
  | cons d l ih =>
      unfold digitsValue at ih ⊢
      rw [List.reverse_cons, List.foldl_append, ih, Nat.ofDigits_cons]
      simp only [List.foldl_cons, List.foldl_nil]
      ring

/-- The exact decimal of a value `10 ^ t * n`, with `n` no multiple of ten. -/
theorem exactDecimal_of_normal (n t : Nat) (hn : 0 < n) (hmod : n % 10 ≠ 0) :
    exactDecimal (10 ^ t * n) =
      { mant := (Nat.digits 10 n).reverse,
        exp := (((Nat.digits 10 n).length + t : Nat) : Int) - 18 } := by
  have hpos : 10 ^ t * n ≠ 0 := by positivity
  obtain ⟨h1, h2⟩ := init_shape_eq n t hn hmod
  simp only [exactDecimal, if_neg hpos, h1, h2]

/-- The exact decimal has the value `v / 10 ^ 18`. -/
theorem exactDecimal_toRat (v : Nat) (hv : 0 < v) :
    (exactDecimal v).toRat = (v : ℚ) / 10 ^ 18 := by
  obtain ⟨n, t, h1, h2, h3, _⟩ := exists_trailing_zeros v hv
  rw [h1, exactDecimal_of_normal n t h3 h2]
  simp only [Decimal.toRat, digitsValue_reverse, Nat.ofDigits_digits, List.length_reverse]
  have hexp : (((Nat.digits 10 n).length + t : Nat) : Int) - 18 - ((Nat.digits 10 n).length : Int)
      = (t : Int) - 18 := by
    push_cast
    ring
  rw [hexp, zpow_sub₀ (by norm_num : (10 : ℚ) ≠ 0)]
  push_cast
  simp only [zpow_natCast]
  have : ((10 : ℚ) ^ (18 : Int)) = 10 ^ 18 := by norm_cast
  rw [this]
  ring

/-- A value with at most ten significant digits is rendered from its exact
decimal. -/
theorem ethValue_round_exact (v n k : Nat) (hn : 0 < n) (hn10 : n < 10 ^ 10)
    (hv : v = n * 10 ^ k) :
    (ethValue v).toDecimal.round 10 = exactDecimal v := by
  obtain ⟨n1, z, h1, h2, h3, h4⟩ := exists_trailing_zeros n hn
  have hvpos : 0 < v := by rw [hv]; positivity
  have hv2 : v = 10 ^ (z + k) * n1 := by rw [hv, h1, pow_add]; ring
  obtain ⟨N, j, hj, hdec, hup, hdown⟩ := ethValue_toDecimal v hvpos
  have hV : v * 10 ^ (j - 18) = 10 ^ (z + k + (j - 18)) * n1 := by
    rw [hv2, pow_add (10 : Nat) (z + k) (j - 18)]
    ring
  rw [hV] at hup hdown
  rw [hdec, round_init_of_close N n1 (z + k + (j - 18)) (j : Int) h3 (by omega) h2 hup hdown,
    hv2, exactDecimal_of_normal n1 (z + k) h3 h2]
  simp only [Decimal.mk.injEq, true_and]
  push_cast
  omega

/-! ## The number a rendered value denotes -/

/-- A digit character is read back as its digit, and is neither the letter `e` nor the point. -/
theorem digitChar_facts : ∀ d : Fin 10,
    digitOf (digitChar d.val) = some d.val ∧ (digitChar d.val != 'e') = true
      ∧ (digitChar d.val != '.') = true := by
  decide

/-- A digit character is read back as its digit. -/
theorem digitOf_digitChar (d : Nat) (h : d < 10) : digitOf (digitChar d) = some d :=
  (digitChar_facts ⟨d, h⟩).1

/-- A digit character is not the letter `e`. -/
theorem digitChar_ne_e (d : Nat) (h : d < 10) : (digitChar d != 'e') = true :=
  (digitChar_facts ⟨d, h⟩).2.1

/-- A digit character is not the point. -/
theorem digitChar_ne_dot (d : Nat) (h : d < 10) : (digitChar d != '.') = true :=
  (digitChar_facts ⟨d, h⟩).2.2

/-- A text of digit characters is read back as its digits. -/
theorem digitsOf_map (l : List Nat) (h : ∀ x ∈ l, x < 10) :
    digitsOf (l.map digitChar) = some l := by
  induction l with
  | nil => rfl
  | cons d l ih =>
      have hd : d < 10 := h d (List.mem_cons_self _ _)
      have hl : ∀ x ∈ l, x < 10 := fun x hx => h x (List.mem_cons_of_mem _ hx)
      simp only [List.map_cons, digitsOf, digitOf_digitChar d hd, ih hl]

/-- A mantissa text holds no letter `e`. -/
theorem mantissaText_no_e (i f : List Nat) (hi : ∀ x ∈ i, x < 10) (hf : ∀ x ∈ f, x < 10) :
    ∀ c ∈ mantissaText i f, (c != 'e') = true := by
  intro c hc
  unfold mantissaText at hc
  rw [List.mem_append] at hc
  rcases hc with hc | hc
  · obtain ⟨d, hd, rfl⟩ := List.mem_map.mp hc
    exact digitChar_ne_e d (hi d hd)
  · by_cases hfe : f = []
    · simp [hfe] at hc
    · rw [if_neg hfe, List.mem_cons] at hc
      rcases hc with rfl | hc
      · decide
      · obtain ⟨d, hd, rfl⟩ := List.mem_map.mp hc
        exact digitChar_ne_e d (hf d hd)

/-- A mantissa text splits at its point into its two runs of digits. -/
theorem mantissaText_split (i f : List Nat) (hi : ∀ x ∈ i, x < 10) :
    (mantissaText i f).takeWhile (fun c => c != '.') = i.map digitChar ∧
    ((mantissaText i f).dropWhile (fun c => c != '.')).drop 1 = f.map digitChar := by
  have hall : ∀ c ∈ i.map digitChar, (c != '.') = true := by
    intro c hc
    obtain ⟨d, hd, rfl⟩ := List.mem_map.mp hc
    exact digitChar_ne_dot d (hi d hd)
  unfold mantissaText
  rw [List.takeWhile_append_of_pos hall, List.dropWhile_append_of_pos hall]
  by_cases hfe : f = []
  · simp [hfe]
  · rw [if_neg hfe, List.takeWhile_cons_of_neg (by decide), List.dropWhile_cons_of_neg (by decide)]
    simp

/-- The number a mantissa text without exponent denotes. -/
theorem decimalValue_plain (i f : List Nat) (hi : ∀ x ∈ i, x < 10) (hf : ∀ x ∈ f, x < 10)
    (hine : i ≠ []) :
    decimalValue (String.mk (mantissaText i f))
      = some ((digitsValue (i ++ f) : ℚ) * (10 : ℚ) ^ (0 - (f.length : Int))) := by
  have hall := mantissaText_no_e i f hi hf
  obtain ⟨h1, h2⟩ := mantissaText_split i f hi
  have ht : (mantissaText i f).takeWhile (fun c => c != 'e') = mantissaText i f :=
    List.takeWhile_eq_self_iff.mpr hall
  have hd : (mantissaText i f).dropWhile (fun c => c != 'e') = [] :=
    List.dropWhile_eq_nil_iff.mpr hall
  simp only [decimalValue, ht, hd, h1, h2, List.drop_nil, digitsOf_map i hi, digitsOf_map f hf,
    exponentOf, if_neg hine]

/-- The number a mantissa text followed by an exponent denotes. -/
theorem decimalValue_sci (i f ds : List Nat) (sign : Char) (e : Int)
    (hi : ∀ x ∈ i, x < 10) (hf : ∀ x ∈ f, x < 10) (hds : ∀ x ∈ ds, x < 10)
    (hine : i ≠ []) (hdne : ds ≠ [])
    (he : (sign = '+' ∧ e = (digitsValue ds : Int)) ∨ (sign = '-' ∧ e = -(digitsValue ds : Int))) :
    decimalValue (String.mk (mantissaText i f ++ 'e' :: sign :: ds.map digitChar))
      = some ((digitsValue (i ++ f) : ℚ) * (10 : ℚ) ^ (e - (f.length : Int))) := by
  have hall := mantissaText_no_e i f hi hf
  obtain ⟨h1, h2⟩ := mantissaText_split i f hi
  have ht : (mantissaText i f ++ 'e' :: sign :: ds.map digitChar).takeWhile (fun c => c != 'e')
      = mantissaText i f := by
    rw [List.takeWhile_append_of_pos hall, List.takeWhile_cons_of_neg (by decide),
      List.append_nil]
  have hd : ((mantissaText i f ++ 'e' :: sign :: ds.map digitChar).dropWhile
      (fun c => c != 'e')).drop 1 = sign :: ds.map digitChar := by
    rw [List.dropWhile_append_of_pos hall, List.dropWhile_cons_of_neg (by decide)]
    rfl
  simp only [decimalValue, ht, hd, h1, h2, digitsOf_map i hi, digitsOf_map f hf,
    exponentOf, digitsOf_map ds hds, if_neg hine, if_neg hdne]
  rcases he with ⟨rfl, rfl⟩ | ⟨rfl, rfl⟩
  · simp [hine]
  · simp [hine]

/-- A leading zero does not change the value of digits. -/
theorem digitsValue_cons_zero (l : List Nat) : digitsValue (0 :: l) = digitsValue l := by
  simp [digitsValue]

/-- The digits of a number: at least one, all decimal, with the number as value. -/
theorem digits_facts (a : Nat) :
    digits a ≠ [] ∧ (∀ x ∈ digits a, x < 10) ∧ digitsValue (digits a) = a := by
  rcases Nat.eq_zero_or_pos a with h | h
  · subst h
    decide
  · rw [digits_eq a h]
    refine ⟨?_, ?_, ?_⟩
    · intro h0
      have := List.reverse_eq_nil_iff.mp h0
      exact (Nat.digits_ne_nil_iff_ne_zero.mpr (by omega)) this
    · intro x hx
      exact Nat.digits_lt_base (by norm_num) (List.mem_reverse.mp hx)
    · rw [digitsValue_reverse, Nat.ofDigits_digits]

/-- The layout `%e` of a decimal with digits `h :: t` and all of them printed. -/
theorem fmtE_shape (h : Nat) (t : List Nat) (E : Int) :
    fmtE t.length { mant := h :: t, exp := E } =
      mantissaText [h] t ++ 'e' :: (if E - 1 < 0 then '-' else '+') ::
        ((if (E - 1).natAbs < 10 then [0] else []) ++ digits (E - 1).natAbs).map digitChar := by
  have hmin : min (t.length + 1) (t.length + 1) = t.length + 1 := by simp
  by_cases ht : t = []
  · subst ht
    simp only [fmtE, mantissaText, List.length_nil, List.length_cons, List.headD_cons,
      lt_irrefl, if_false, if_true, List.map_cons, List.map_nil, List.append_nil,
      List.nil_append, List.cons_append, zero_add, Nat.lt_one_iff, gt_iff_lt, Nat.zero_lt_one,
      List.map_append]
    split_ifs <;> simp <;> rfl
  · have hpos : 0 < t.length := List.length_pos.mpr ht
    simp only [fmtE, mantissaText, List.length_cons, List.headD_cons, hmin, hpos, if_true,
      if_neg ht, List.take_succ_cons, List.take_length, List.drop_succ_cons, List.drop_zero,
      List.map_cons, List.map_nil, List.nil_append, List.cons_append, List.map_append,
      gt_iff_lt, Nat.zero_lt_succ]
    have hz : t.length + 1 - max (t.length + 1) 1 = 0 := by omega
    rw [hz]
    split_ifs <;> simp <;> rfl

/-- The digit at a place inside or after the mantissa. -/
theorem at_natCast (d : Decimal) (n : Nat) : d.at (n : Int) = d.mant.getD n 0 := by
  unfold Decimal.at
  by_cases h : n < d.mant.length
  · simp [h]
  · simp only [Int.toNat_ofNat, h, and_false, if_false]
    rw [List.getD_eq_default _ _ (by omega)]

/-- The digit at a place before the mantissa is zero. -/
theorem at_neg (d : Decimal) (i : Int) (h : i < 0) : d.at i = 0 := by
  unfold Decimal.at
  rw [if_neg (by omega)]

/-- Reading the digits of a list from a place on gives the list from that place on. -/
theorem map_getD_range (l : List Nat) (e : Nat) :
    (List.range (l.length - e)).map (fun i => l.getD (e + i) 0) = l.drop e := by
  apply List.ext_getElem?
  intro n
  by_cases hn : n < l.length - e
  · simp only [List.getElem?_map, List.getElem?_range hn, Option.map_some', List.getElem?_drop]
    rw [List.getD_eq_getElem?_getD, List.getElem?_eq_getElem (by omega)]
    rfl
  · rw [List.getElem?_eq_none (by simp; omega), List.getElem?_eq_none (by simp; omega)]

/-- The fraction digits `%f` prints for a decimal whose point is `k` places
before its digits. -/
theorem frac_digits_neg (d : Decimal) (k : Nat) :
    (List.range (k + d.mant.length)).map (fun (i : Nat) => d.at (-(k : Int) + (i : Int)))
      = List.replicate k 0 ++ d.mant := by
  rw [List.range_add, List.map_append, List.map_map]
  congr 1
  · apply List.ext_getElem?
    intro n
    by_cases hn : n < k
    · simp only [List.getElem?_map, List.getElem?_range hn, Option.map_some',
        List.getElem?_replicate, hn, if_true]
      rw [at_neg d _ (by omega)]
    · rw [List.getElem?_eq_none (by simp; omega), List.getElem?_eq_none (by simp; omega)]
  · have h := map_getD_range d.mant 0
    simp only [Nat.sub_zero, zero_add, List.drop_zero] at h
    conv_rhs => rw [← h]
    apply List.map_congr_left
    intro i _
    simp only [Function.comp]
    have : (-(k : Int) + ((k + i : Nat) : Int)) = (i : Int) := by push_cast; ring
    rw [this, at_natCast]

/-- The fraction digits `%f` prints for a decimal whose point is inside its
digits. -/
theorem frac_digits_pos (d : Decimal) (e : Nat) :
    (List.range (d.mant.length - e)).map (fun (i : Nat) => d.at ((e : Int) + (i : Int)))
      = d.mant.drop e := by
  rw [← map_getD_range d.mant e]
  apply List.map_congr_left
  intro i _
  have : ((e : Int) + (i : Int)) = ((e + i : Nat) : Int) := by push_cast; ring
  rw [this, at_natCast]

/-- The layout `%f` as a mantissa text. -/
theorem fmtF_shape (prec : Nat) (d : Decimal) :
    fmtF prec d =
      mantissaText
        (if 0 < d.exp then
          d.mant.take (min d.mant.length d.exp.toNat)
            ++ List.replicate (d.exp.toNat - min d.mant.length d.exp.toNat) 0
         else [0])
        ((List.range prec).map (fun (i : Nat) => d.at (d.exp + (i : Int)))) := by
  have hfr : ((List.range prec).map (fun (i : Nat) => d.at (d.exp + (i : Int))) = []) ↔ ¬ 0 < prec := by
    rw [List.map_eq_nil_iff, List.range_eq_nil]
    omega
  unfold fmtF mantissaText
  by_cases hp : 0 < prec
  · rw [if_neg (fun h => (hfr.mp h) hp)]
    simp only [hp, if_true, List.map_map]
    congr 1
    split_ifs
    · simp [show digitChar 0 = '0' from rfl]
    · rfl
  · rw [if_pos (hfr.mpr hp)]
    simp only [hp, if_false]
    congr 1
    split_ifs
    · simp [show digitChar 0 = '0' from rfl]
    · rfl

/-- The value of digits, through the digits of Mathlib. -/
theorem digitsValue_eq (l : List Nat) : digitsValue l = Nat.ofDigits 10 l.reverse := by
  rw [← digitsValue_reverse, List.reverse_reverse]

/-- The value of two runs of digits. -/
theorem digitsValue_append (l1 l2 : List Nat) :
    digitsValue (l1 ++ l2) = digitsValue l1 * 10 ^ l2.length + digitsValue l2 := by
  rw [digitsValue_eq, digitsValue_eq l1, digitsValue_eq l2, List.reverse_append,
    Nat.ofDigits_append, List.length_reverse]
  ring

/-- Zeros have the value zero. -/
theorem digitsValue_replicate_zero (k : Nat) : digitsValue (List.replicate k 0) = 0 := by
  induction k with
  | zero => rfl
  | succ k ih => rw [List.replicate_succ, digitsValue_cons_zero, ih]

/-- Leading zeros do not change the value of digits. -/
theorem digitsValue_zeros_append (k : Nat) (l : List Nat) :
    digitsValue (List.replicate k 0 ++ l) = digitsValue l := by
  rw [digitsValue_append, digitsValue_replicate_zero]
  simp

/-- Trailing zeros multiply the value of digits by a power of ten. -/
theorem digitsValue_append_zeros (k : Nat) (l : List Nat) :
    digitsValue (l ++ List.replicate k 0) = digitsValue l * 10 ^ k := by
  rw [digitsValue_append, digitsValue_replicate_zero, List.length_replicate]
  simp

/-- The text `%e` lays out denotes the value of the decimal. -/
theorem decimalValue_fmtE (h : Nat) (t : List Nat) (E : Int)
    (hdig : ∀ x ∈ h :: t, x < 10) :
    decimalValue (String.mk (fmtE t.length { mant := h :: t, exp := E }))
      = some (Decimal.toRat { mant := h :: t, exp := E }) := by
  obtain ⟨hd1, hd2, hd3⟩ := digits_facts (E - 1).natAbs
  have hh : ∀ x ∈ [h], x < 10 := by
    intro x hx
    exact hdig x (by simp at hx; simp [hx])
  have ht : ∀ x ∈ t, x < 10 := fun x hx => hdig x (List.mem_cons_of_mem _ hx)
  have hds : ∀ x ∈ (if (E - 1).natAbs < 10 then [0] else []) ++ digits (E - 1).natAbs, x < 10 := by
    intro x hx
    rw [List.mem_append] at hx
    rcases hx with hx | hx
    · split_ifs at hx
      · simp at hx
        omega
      · simp at hx
    · exact hd2 x hx
  have hval : digitsValue ((if (E - 1).natAbs < 10 then [0] else []) ++ digits (E - 1).natAbs)
      = (E - 1).natAbs := by
    split_ifs
    · rw [List.singleton_append, digitsValue_cons_zero, hd3]
    · rw [List.nil_append, hd3]
  rw [fmtE_shape, decimalValue_sci [h] t _ _ (E - 1) hh ht hds (by simp)
    (by
      intro h0
      exact hd1 (List.append_eq_nil.mp h0).2)
    (by
      rw [hval]
      by_cases hneg : E - 1 < 0
      · right
        exact ⟨by simp [hneg], by omega⟩
      · left
        exact ⟨by simp [hneg], by omega⟩)]
  simp only [Decimal.toRat, List.singleton_append, List.length_cons]
  have hexp : E - 1 - (t.length : Int) = E - ((t.length + 1 : Nat) : Int) := by
    push_cast
    omega
  rw [hexp]

/-- The text `%f` lays out, with the number of fraction digits `%g` asks for,
denotes the value of the decimal. -/
theorem decimalValue_fmtF (h : Nat) (t : List Nat) (E : Int)
    (hdig : ∀ x ∈ h :: t, x < 10) (hlen : (h :: t).length ≤ 10) (hE : E ≤ 10) :
    decimalValue (String.mk (fmtF
        ((if (10 : Int) > E then ((h :: t).length : Int) else 10) - E).toNat
        { mant := h :: t, exp := E }))
      = some (Decimal.toRat { mant := h :: t, exp := E }) := by
  rw [fmtF_shape]
  simp only []
  rcases le_or_lt E 0 with hneg | hpos
  · -- the point is before the digits
    obtain ⟨k, rfl⟩ : ∃ k : Nat, E = -(k : Int) := ⟨(-E).toNat, by omega⟩
    have hprec : ((if (10 : Int) > -(k : Int) then ((h :: t).length : Int) else 10)
        - -(k : Int)).toNat = k + (h :: t).length := by
      rw [if_pos (by omega)]
      omega
    rw [hprec, if_neg (by omega)]
    have hfr := frac_digits_neg { mant := h :: t, exp := -(k : Int) } k
    simp only [] at hfr
    rw [hfr, decimalValue_plain [0] _ (by simp)
      (by
        intro x hx
        rw [List.mem_append] at hx
        rcases hx with hx | hx
        · rw [List.eq_of_mem_replicate hx]
          norm_num
        · exact hdig x hx)
      (by simp)]
    simp only [Decimal.toRat, List.singleton_append, digitsValue_cons_zero,
      digitsValue_zeros_append, List.length_append, List.length_replicate]
    have hexp : (0 : Int) - ((k + (h :: t).length : Nat) : Int)
        = -(k : Int) - ((h :: t).length : Int) := by
      push_cast
      omega
    rw [hexp]
  · obtain ⟨e, rfl⟩ : ∃ e : Nat, E = (e : Int) := ⟨E.toNat, by omega⟩
    have he0 : 0 < e := by omega
    rw [if_pos hpos, Int.toNat_ofNat]
    rcases lt_or_le e (h :: t).length with hin | hout
    · -- the point is inside the digits
      have hprec : ((if (10 : Int) > (e : Int) then ((h :: t).length : Int) else 10)
          - (e : Int)).toNat = (h :: t).length - e := by
        have : e < 10 := by omega
        rw [if_pos (by omega)]
        omega
      have hmin : min (h :: t).length e = e := by omega
      have hfr := frac_digits_pos { mant := h :: t, exp := (e : Int) } e
      simp only [] at hfr
      rw [hprec, hmin, hfr, Nat.sub_self, List.replicate_zero, List.append_nil,
        decimalValue_plain _ _
          (fun x hx => hdig x (List.mem_of_mem_take hx))
          (fun x hx => hdig x (List.mem_of_mem_drop hx))
          (by
            intro h0
            have := congrArg List.length h0
            simp at this
            omega)]
      simp only [Decimal.toRat, List.take_append_drop, List.length_drop]
      have hexp : (0 : Int) - (((h :: t).length - e : Nat) : Int)
          = (e : Int) - ((h :: t).length : Int) := by
        omega
      rw [hexp]
    · -- the point is after the digits
      have hprec : ((if (10 : Int) > (e : Int) then ((h :: t).length : Int) else 10)
          - (e : Int)).toNat = 0 := by
        split_ifs <;> omega
      have hmin : min (h :: t).length e = (h :: t).length := by omega
      rw [hprec, hmin, List.take_length, List.range_zero, List.map_nil,
        decimalValue_plain _ []
          (by
            intro x hx
            rw [List.mem_append] at hx
            rcases hx with hx | hx
            · exact hdig x hx
            · rw [List.eq_of_mem_replicate hx]
              norm_num)
          (by simp) (by simp)]
      simp only [Decimal.toRat, List.append_nil, digitsValue_append_zeros, List.length_nil]
      obtain ⟨c, hc⟩ : ∃ c, e = (h :: t).length + c := ⟨e - (h :: t).length, by omega⟩
      rw [hc]
      have h1 : (h :: t).length + c - (h :: t).length = c := by omega
      have h2 : (((h :: t).length + c : Nat) : Int) - ((h :: t).length : Int) = (c : Int) := by
        push_cast
        omega
      rw [h1, h2]
      push_cast
      simp

/-- The text `%g` lays out for a decimal of at most ten digits denotes the value
of the decimal. -/
theorem decimalValue_fmtG (d : Decimal) (hdig : ∀ x ∈ d.mant, x < 10) (hne : d.mant ≠ [])
    (hlen : d.mant.length ≤ 10) :
    decimalValue (String.mk (fmtG 10 d)) = some d.toRat := by
  obtain ⟨mant, E⟩ := d
  simp only [] at hdig hne hlen
  obtain ⟨h, t, rfl⟩ := List.exists_cons_of_ne_nil hne
  have hround : Decimal.round { mant := h :: t, exp := E } 10 = { mant := h :: t, exp := E } := by
    simp only [Decimal.round, if_pos hlen]
  have hpe : min 10 (h :: t).length - 1 = t.length := by
    have := List.length_cons h t
    omega
  unfold fmtG
  simp only [hround]
  by_cases hc : E - 1 < -4 ∨ E - 1 ≥
      (if 10 > (h :: t).length ∧ ((h :: t).length : Int) ≥ E then ((h :: t).length : Int)
        else ((10 : Nat) : Int))
  · rw [if_pos hc, hpe]
    exact decimalValue_fmtE h t E hdig
  · rw [if_neg hc]
    have hE : E ≤ 10 := by
      by_contra hcon
      apply hc
      right
      split_ifs <;> omega
    have := decimalValue_fmtF h t E hdig hlen hE
    simpa using this

/-! ## The rendered value (C3) -/

/-- The digits of the exact decimal of a positive value: decimal digits, at
least one. -/
theorem exactDecimal_digits (v : Nat) (hv : 0 < v) :
    (∀ x ∈ (exactDecimal v).mant, x < 10) ∧ (exactDecimal v).mant ≠ [] := by
  obtain ⟨n, t, h1, h2, h3, _⟩ := exists_trailing_zeros v hv
  rw [h1, exactDecimal_of_normal n t h3 h2]
  constructor
  · intro x hx
    exact Nat.digits_lt_base (by norm_num) (List.mem_reverse.mp hx)
  · intro h0
    exact (Nat.digits_ne_nil_iff_ne_zero.mpr (by omega)) (List.reverse_eq_nil_iff.mp h0)

set_option maxRecDepth 100000 in
/-- C3, as stated, fails: 1234567890123456789 wei is rendered as `1.23456789`;
the digits of the quotient after the tenth significant one are lost, and the
number the string denotes is not `v / 10 ^ 18`. -/
theorem value_rendering_loses_digits :
    (ethValue 1234567890123456789).String = "1.23456789" ∧
    decimalValue (ethValue 1234567890123456789).String
      ≠ some ((1234567890123456789 : ℚ) / 10 ^ 18) := by
  have hs : (ethValue 1234567890123456789).String
      = String.mk (fmtG 10 { mant := [1, 2, 3, 4, 5, 6, 7, 8, 9], exp := 1 }) := by
    decide
  refine ⟨by decide, ?_⟩
  rw [hs, decimalValue_fmtG _ (by decide) (by decide) (by decide)]
  simp only [Decimal.toRat, digitsValue, List.foldl_cons, List.foldl_nil, List.length_cons,
    List.length_nil, ne_eq, Option.some.injEq]
  norm_num

/-- C3, amended: for every wei value `v`, the value string is the `%g` layout
of the quotient rounded to at most ten significant decimal digits; and when `v`
has at most ten significant digits (`v = n * 10 ^ k` with `n < 10 ^ 10`), the
number the string denotes is exactly `v / 10 ^ 18`: the decimal that is laid out
is the exact decimal of `v / 10 ^ 18`, no digit is lost. -/
theorem ethValue_rendering (v : Nat) :
    ((ethValue v).toDecimal.round 10).mant.length ≤ 10 ∧
    (∀ n k : Nat, n < 10 ^ 10 → v = n * 10 ^ k →
      (ethValue v).toDecimal.round 10 = exactDecimal v ∧
      decimalValue (ethValue v).String = some ((v : ℚ) / 10 ^ 18)) := by
  refine ⟨round_length_le _, ?_⟩
  intro n k hn10 hv
  rcases Nat.eq_zero_or_pos n with hn0 | hn
  · have hv0 : v = 0 := by rw [hv, hn0, zero_mul]
    subst hv0
    refine ⟨by decide, ?_⟩
    have hs : (ethValue 0).String = "0" := by decide
    rw [hs]
    simp [decimalValue, digitsOf, digitOf, exponentOf, digitsValue]
  · have hr := ethValue_round_exact v n k hn hn10 hv
    have hvpos : 0 < v := by rw [hv]; positivity
    refine ⟨hr, ?_⟩
    have hlen : (exactDecimal v).mant.length ≤ 10 := by
      rw [← hr]
      exact round_length_le _
    have hidem : (exactDecimal v).round 10 = exactDecimal v := by
      simp only [Decimal.round, if_pos hlen]
    obtain ⟨hdig, hne⟩ := exactDecimal_digits v hvpos
    unfold BigFloat.String
    rw [fmtG_congr (ethValue v).toDecimal (exactDecimal v) (by rw [hr, hidem]),
      decimalValue_fmtG (exactDecimal v) hdig hne hlen, exactDecimal_toRat v hvpos]

set_option maxRecDepth 100000 in
/-- Witness of the amended C3: 1500000000000000000 wei, that is `15 * 10 ^ 17`,
is rendered as `1.5`, which denotes `1500000000000000000 / 10 ^ 18`. -/
theorem ethValue_rendering_witness :
    (ethValue 1500000000000000000).String = "1.5" ∧
    decimalValue (ethValue 1500000000000000000).String
      = some ((1500000000000000000 : ℚ) / 10 ^ 18) :=
  ⟨by decide,
   ((ethValue_rendering 1500000000000000000).2 15 17 (by norm_num) (by norm_num)).2⟩

end Monitor
